import Mathlib

/-
Verification of the segmented block store, the posting-list codec, the
inverted-index construction and the scoring engine of the
IR-Final-Project-2026 repository (`inverted_index_gcp.py`,
`search_frontend.py`), as a shallow embedding in Lean 4.

Modelling conventions:
* bytes are natural numbers (below 256 wherever produced by the codec);
* segment files are indexed by their sequence number `k`, which stands for
  the file named with suffix `_{k:03d}.bin`;
* Python dictionaries keyed by term are association lists in insertion
  order, and `Counter`s are total functions with default value 0;
* Python floats are modelled as real numbers.
-/

namespace IRIndex

/-- `BLOCK_SIZE` from `inverted_index_gcp.py`: maximum size in bytes of each
binary segment file. -/
def BLOCK_SIZE : Nat := 1999998

/-- `TUPLE_SIZE`: bytes per encoded posting entry, 4 bytes of document id
plus 2 bytes of term frequency. -/
def TUPLE_SIZE : Nat := 6

/-- `TF_MASK`: mask extracting the low 16 bits of a term frequency. -/
def TF_MASK : Nat := 2 ^ 16 - 1

/-- State of a `MultiFileWriter`: the contents of the already-closed segment
files, in sequence order, and the contents of the currently open file.  The
currently open file has sequence number `closed.length`. -/
structure MultiFileWriter where
  closed : List (List Nat)
  cur : List Nat

/-- A freshly constructed `MultiFileWriter` (`__init__`): no closed files and
an empty current file with sequence number 0. -/
def MultiFileWriter.start : MultiFileWriter := ⟨[], []⟩

/-- The loop of `MultiFileWriter.write`: while unwritten bytes remain,
compute `remaining = BLOCK_SIZE - pos` for the current position; if
`remaining == 0`, close the current file and open the next one (so the
current chunk goes to a fresh file at position 0); write `b[:remaining]`,
record `(file, pos)`, and continue with `b[remaining:]`.  Returns the final
`(closed files, current file)` state and the recorded locations. -/
def writeAux (closed : List (List Nat)) (cur : List Nat) (b : List Nat) :
    (List (List Nat) × List Nat) × List (Nat × Nat) :=
  if hb : b = [] then ((closed, cur), [])
  else if BLOCK_SIZE - cur.length = 0 then
    let out := writeAux (closed ++ [cur]) (b.take BLOCK_SIZE) (b.drop BLOCK_SIZE)
    (out.1, ((closed.length + 1, 0) :: out.2))
  else
    let out := writeAux closed (cur ++ b.take (BLOCK_SIZE - cur.length))
        (b.drop (BLOCK_SIZE - cur.length))
    (out.1, ((closed.length, cur.length) :: out.2))
termination_by b.length
decreasing_by
  · have hB : BLOCK_SIZE = 1999998 := rfl
    have hb0 : 0 < b.length := List.length_pos.mpr hb
    simp only [List.length_drop]
    omega
  · have hb0 : 0 < b.length := List.length_pos.mpr hb
    simp only [List.length_drop]
    omega

/-- `MultiFileWriter.write`. -/
def MultiFileWriter.write (st : MultiFileWriter) (b : List Nat) :
    MultiFileWriter × List (Nat × Nat) :=
  let out := writeAux st.closed st.cur b
  (⟨out.1.1, out.1.2⟩, out.2)

/-- All segment files produced by a writer, in sequence order: the closed
ones followed by the currently open one. -/
def MultiFileWriter.files (st : MultiFileWriter) : List (List Nat) :=
  st.closed ++ [st.cur]

/-- `MultiFileReader.read`: for each `(file, offset)` location, seek to
`offset` and read `min(n_bytes, BLOCK_SIZE - offset)` bytes (fewer if the
file ends earlier), concatenating the chunks in location order.  `files`
gives the contents of every segment file, indexed by sequence number. -/
def MultiFileReader.read (files : List (List Nat)) :
    List (Nat × Nat) → Nat → List Nat
  | [], _ => []
  | (f, offset) :: locs, n_bytes =>
    let n_read := min n_bytes (BLOCK_SIZE - offset)
    ((files.getD f []).drop offset).take n_read ++
      MultiFileReader.read files locs (n_bytes - n_read)

/-- Big-endian `int.to_bytes(k, 'big')`: most significant byte first.
(The Python call raises for values not fitting in `k` bytes; this model
truncates instead, and every use below is within range.) -/
def toBytesBE : Nat → Nat → List Nat
  | 0, _ => []
  | k + 1, n => toBytesBE k (n / 256) ++ [n % 256]

/-- Big-endian `int.from_bytes(b, 'big')`. -/
def fromBytesBE (b : List Nat) : Nat :=
  b.foldl (fun acc x => acc * 256 + x) 0

/-- Encoding of one posting entry in `write_a_posting_list`:
`(doc_id << 16 | (tf & TF_MASK)).to_bytes(TUPLE_SIZE, 'big')`. -/
def encodeTuple (p : Nat × Nat) : List Nat :=
  toBytesBE TUPLE_SIZE (p.1 <<< 16 ||| (p.2 &&& TF_MASK))

/-- The byte buffer `write_a_posting_list` builds for one posting list:
`b''.join([... for doc_id, tf in pl])`. -/
def encodePostings (pl : List (Nat × Nat)) : List Nat :=
  (pl.map encodeTuple).flatten

/-- The decoding loop shared by `read_a_posting_list` and
`posting_lists_iter`: entry `i` is
`(int.from_bytes(b[i*6:i*6+4], 'big'), int.from_bytes(b[i*6+4:(i+1)*6], 'big'))`
for `i` in `range(df)`. -/
def decodePostings (b : List Nat) (df : Nat) : List (Nat × Nat) :=
  (List.range df).map fun i =>
    (fromBytesBE ((b.drop (i * TUPLE_SIZE)).take 4),
     fromBytesBE ((b.drop (i * TUPLE_SIZE + 4)).take 2))

/-- `posting_locs[w].extend(locs)` on a `defaultdict(list)` modelled as an
association list: extend the entry of `w` in place, creating it at the end
if absent. -/
def dextend (al : List (String × List (Nat × Nat))) (w : String)
    (locs : List (Nat × Nat)) : List (String × List (Nat × Nat)) :=
  match al with
  | [] => [(w, locs)]
  | p :: rest =>
    if p.1 = w then (p.1, p.2 ++ locs) :: rest else p :: dextend rest w locs

/-- The loop of `InvertedIndex.write_a_posting_list`: for each
`(term, posting list)` pair, encode the postings, write the buffer through
the writer, and record the returned locations under the term. -/
def writePLAux (st : MultiFileWriter) (acc : List (String × List (Nat × Nat))) :
    List (String × List (Nat × Nat)) →
      MultiFileWriter × List (String × List (Nat × Nat))
  | [] => (st, acc)
  | (w, pl) :: rest =>
    let out := st.write (encodePostings pl)
    writePLAux out.1 (dextend acc w out.2) rest

/-- `InvertedIndex.write_a_posting_list` through a fresh `MultiFileWriter`:
returns the final writer state and the recorded `posting_locs`. -/
def write_a_posting_list (list_w_pl : List (String × List (Nat × Nat))) :
    MultiFileWriter × List (String × List (Nat × Nat)) :=
  writePLAux MultiFileWriter.start [] list_w_pl

/-- The metadata of a stored `InvertedIndex` needed for retrieval:
`df` (a `Counter`, absent terms read as 0) and `posting_locs`. -/
structure StoredIndex where
  df : String → Nat
  posting_locs : List (String × List (Nat × Nat))

/-- `InvertedIndex.read_a_posting_list`: returns `[]` when the term has no
entry in `posting_locs`; otherwise reads `df[w] * TUPLE_SIZE` bytes from the
recorded locations and decodes them. -/
def read_a_posting_list (idx : StoredIndex) (files : List (List Nat))
    (w : String) : List (Nat × Nat) :=
  match idx.posting_locs.lookup w with
  | none => []
  | some locs =>
      decodePostings (MultiFileReader.read files locs (idx.df w * TUPLE_SIZE))
        (idx.df w)

/-- A sequence of `MultiFileWriter.write` calls against one writer,
returning the final state and the location list of each call in order. -/
def runWrites (st : MultiFileWriter) :
    List (List Nat) → MultiFileWriter × List (List (Nat × Nat))
  | [] => (st, [])
  | b :: bs =>
    let out := st.write b
    let rest := runWrites out.1 bs
    (rest.1, out.2 :: rest.2)

/-- `fs'` extends `fs` when every segment file of `fs` is an initial
segment of the corresponding file of `fs'` (the writer only ever appends
to its current file or opens new files). -/
def FilesExtend (fs fs' : List (List Nat)) : Prop :=
  ∀ i, (fs'.getD i []).take ((fs.getD i []).length) = fs.getD i []

/-- The construction-time state of an `InvertedIndex`: `df` and
`term_total` are `Counter`s (absent keys read as 0) and `postingList`
models the transient `_posting_list` accumulator (a `defaultdict(list)`,
absent keys read as `[]`). -/
structure BuildIndex where
  df : String → Nat
  term_total : String → Nat
  postingList : String → List (Nat × Nat)

/-- The empty index state produced by `InvertedIndex.__init__` before any
document is added. -/
def BuildIndex.empty : BuildIndex := ⟨fun _ => 0, fun _ => 0, fun _ => []⟩

/-- `InvertedIndex.add_doc`: count the occurrences of each token
(`w2cnt = Counter(tokens)`), add the counts into `term_total`, and for
each distinct token increment `df` by one and append `(doc_id, count)` to
its posting list. -/
def add_doc (idx : BuildIndex) (doc_id : Nat) (tokens : List String) : BuildIndex where
  df := fun w => if w ∈ tokens then idx.df w + 1 else idx.df w
  term_total := fun w => idx.term_total w + tokens.count w
  postingList := fun w =>
    if w ∈ tokens then idx.postingList w ++ [(doc_id, tokens.count w)]
    else idx.postingList w

/-- `InvertedIndex.__init__(docs)`: add every document of `docs` in
order. -/
def buildIndex (docs : List (Nat × List String)) : BuildIndex :=
  docs.foldl (fun idx p => add_doc idx p.1 p.2) BuildIndex.empty

/-! ### The scoring engine of `search_frontend.py`

The scoring loops consume posting lists through `_get_posting`; the
`Frontend` structure carries, for each of the three indices, the
membership map `df` (`None` for a term with no entry) and the posting
list that `read_a_posting_list` would return for a term, together with
the metadata dictionaries.  The indices are modelled as loaded (the
`if self.body_index` style guards are taken to pass), and `N` carries
the corpus document count the handlers compute as
`len(self.doc_norms) if self.doc_norms else 6000000`.  Python floats are
modelled as real numbers. -/

structure Frontend where
  title_df : String → Option Nat
  title_posting : String → List (Nat × Nat)
  anchor_df : String → Option Nat
  anchor_posting : String → List (Nat × Nat)
  body_df : String → Option Nat
  body_posting : String → List (Nat × Nat)
  doc_norms : Nat → Option ℝ
  N : Nat
  id_to_title : Nat → Option String

/-- `SearchFrontend._get_posting`: empty when the token has no entry in
the index's `df`, otherwise the posting list of the token. -/
def get_posting (df : String → Option Nat) (posting : String → List (Nat × Nat))
    (t : String) : List (Nat × Nat) :=
  match df t with
  | none => []
  | some _ => posting t

/-- `scores[k] += v` on a Python `Counter` whose items keep insertion
order: add `v` to the first entry with key `k`, or append `(k, v)` at the
end when `k` is absent (a missing key reads as 0). -/
def counterAdd (c : List (Nat × ℝ)) (k : Nat) (v : ℝ) : List (Nat × ℝ) :=
  match c with
  | [] => [(k, v)]
  | p :: rest => if p.1 = k then (p.1, p.2 + v) :: rest else p :: counterAdd rest k v

/-- The value of `scores[d]` in a counter (0 when absent). -/
def scoreOf (c : List (Nat × ℝ)) (d : Nat) : ℝ := (c.lookup d).getD 0

/-- The body of the `for t in tokens` loop of `search_title`:
`scores[int(d)] += 1` for every posting of `t` in the title index. -/
def titleStep (fr : Frontend) (scores : List (Nat × ℝ)) (t : String) :
    List (Nat × ℝ) :=
  (get_posting fr.title_df fr.title_posting t).foldl
    (fun sc p => counterAdd sc p.1 1) scores

/-- The body of the `for t in tokens` loop of `search_anchor`:
`scores[int(d)] += 1` for every posting of `t` in the anchor index. -/
def anchorStep (fr : Frontend) (scores : List (Nat × ℝ)) (t : String) :
    List (Nat × ℝ) :=
  (get_posting fr.anchor_df fr.anchor_posting t).foldl
    (fun sc p => counterAdd sc p.1 1) scores

/-- The body of the `for t in tokens` loop of `search_body`: when `t` has
a body document frequency, `idf = log10(N / df[t])` and
`scores[di] += (tf * idf) / doc_norms.get(di, 1)` for every posting. -/
noncomputable def bodyStep (fr : Frontend) (scores : List (Nat × ℝ)) (t : String) :
    List (Nat × ℝ) :=
  match fr.body_df t with
  | none => scores
  | some dft =>
    (get_posting fr.body_df fr.body_posting t).foldl
      (fun sc p =>
        counterAdd sc p.1
          (((p.2 : ℝ) * Real.logb 10 ((fr.N : ℝ) / (dft : ℝ))) /
            ((fr.doc_norms p.1).getD 1)))
      scores

/-- The body of the `for t in tokens` loop of `search` (hybrid mode):
`scores[int(d)] += 0.7` for every title posting of `t`, then with
`idf = log10(N / df[t])` when `t` is in the body `df` and `0` otherwise,
`scores[int(d)] += 0.3 * (tf * idf) / doc_norms.get(int(d), 1)` for every
body posting of `t`. -/
noncomputable def hybridStep (fr : Frontend) (scores : List (Nat × ℝ)) (t : String) :
    List (Nat × ℝ) :=
  let sc1 := (get_posting fr.title_df fr.title_posting t).foldl
    (fun sc p => counterAdd sc p.1 0.7) scores
  let idf : ℝ :=
    match fr.body_df t with
    | some dft => Real.logb 10 ((fr.N : ℝ) / (dft : ℝ))
    | none => 0
  (get_posting fr.body_df fr.body_posting t).foldl
    (fun sc p =>
      counterAdd sc p.1 (0.3 * ((p.2 : ℝ) * idf) / ((fr.doc_norms p.1).getD 1)))
    sc1

/-- Accumulated scores of `search_title` over the tokenized query. -/
def search_title_scores (fr : Frontend) (tokens : List String) : List (Nat × ℝ) :=
  tokens.foldl (titleStep fr) []

/-- Accumulated scores of `search_anchor` over the tokenized query. -/
def search_anchor_scores (fr : Frontend) (tokens : List String) : List (Nat × ℝ) :=
  tokens.foldl (anchorStep fr) []

/-- Accumulated scores of `search_body` over the tokenized query. -/
noncomputable def search_body_scores (fr : Frontend) (tokens : List String) :
    List (Nat × ℝ) :=
  tokens.foldl (bodyStep fr) []

/-- Accumulated scores of `search` (hybrid mode) over the tokenized query. -/
noncomputable def search_scores (fr : Frontend) (tokens : List String) :
    List (Nat × ℝ) :=
  tokens.foldl (hybridStep fr) []

/-- `sorted(scores.items(), key=lambda x: x[1], reverse=True)`: a stable
sort of the counter items, descending by score. -/
noncomputable def sortScores (c : List (Nat × ℝ)) : List (Nat × ℝ) :=
  c.mergeSort fun a b => decide (b.2 ≤ a.2)

/-- The result row built for a scored document:
`(str(d), id_to_title.get(d, "Unknown"))`. -/
def resultRow (fr : Frontend) (p : Nat × ℝ) : String × String :=
  (toString p.1, (fr.id_to_title p.1).getD "Unknown")

/-- `search_title` result list: every scored document, best first, no
truncation. -/
noncomputable def search_title_res (fr : Frontend) (tokens : List String) :
    List (String × String) :=
  (sortScores (search_title_scores fr tokens)).map (resultRow fr)

/-- `search_anchor` result list: every scored document, best first, no
truncation. -/
noncomputable def search_anchor_res (fr : Frontend) (tokens : List String) :
    List (String × String) :=
  (sortScores (search_anchor_scores fr tokens)).map (resultRow fr)

/-- `search_body` result list: `res[:100]` of the sorted scores. -/
noncomputable def search_body_res (fr : Frontend) (tokens : List String) :
    List (String × String) :=
  ((sortScores (search_body_scores fr tokens)).take 100).map (resultRow fr)

/-- The first 100 sorted score items of `search` (hybrid mode). -/
noncomputable def search_ranked (fr : Frontend) (tokens : List String) :
    List (Nat × ℝ) :=
  (sortScores (search_scores fr tokens)).take 100

/-- `search` result list: `res[:100]` of the sorted scores. -/
noncomputable def search_res (fr : Frontend) (tokens : List String) :
    List (String × String) :=
  (search_ranked fr tokens).map (resultRow fr)

/-- Specification-side per-term body score (from the spec wording of C4):
a term absent from the body index contributes 0; otherwise document `d`
receives `(tf * log10(N / df[t])) / norm[doc_id]` for each posting
`(doc_id, tf)` of `t` with `doc_id = d`, the norm defaulting to 1. -/
noncomputable def bodyTermSpec (fr : Frontend) (t : String) (d : Nat) : ℝ :=
  match fr.body_df t with
  | none => 0
  | some dft =>
    ((get_posting fr.body_df fr.body_posting t).map fun p =>
      if p.1 = d then
        ((p.2 : ℝ) * Real.logb 10 ((fr.N : ℝ) / (dft : ℝ))) /
          ((fr.doc_norms p.1).getD 1)
      else 0).sum

/-- The idf used by hybrid scoring (0 for a term absent from the body
index). -/
noncomputable def hybridIdf (fr : Frontend) (t : String) : ℝ :=
  match fr.body_df t with
  | some dft => Real.logb 10 ((fr.N : ℝ) / (dft : ℝ))
  | none => 0

/-- Specification-side per-term hybrid score (from the spec wording of
C5): document `d` receives 0.7 for each occurrence of `d` in the title
posting list of `t`, plus `0.3 * (tf * idf) / norm` for each body posting
of `t` with document id `d`. -/
noncomputable def hybridTermSpec (fr : Frontend) (t : String) (d : Nat) : ℝ :=
  ((get_posting fr.title_df fr.title_posting t).map fun p =>
    if p.1 = d then (0.7 : ℝ) else 0).sum +
  ((get_posting fr.body_df fr.body_posting t).map fun p =>
    if p.1 = d then 0.3 * ((p.2 : ℝ) * hybridIdf fr t) / ((fr.doc_norms p.1).getD 1)
    else 0).sum

/-! ### Shard-location merging in `SearchFrontend._load_extra_locs` -/

/-- `d[k] = v` on a Python dict modelled as an association list: replace
the value of the first entry with key `k`, or append at the end. -/
def setAssoc (d : List (String × List (Nat × Nat))) (k : String)
    (v : List (Nat × Nat)) : List (String × List (Nat × Nat)) :=
  match d with
  | [] => [(k, v)]
  | p :: rest => if p.1 = k then (k, v) :: rest else p :: setAssoc rest k v

/-- `d.update(l)` on Python dicts: assign every key of `l`, in order. -/
def dictUpdate (d l : List (String × List (Nat × Nat))) :
    List (String × List (Nat × Nat)) :=
  l.foldl (fun d p => setAssoc d p.1 p.2) d

/-- One iteration of the blob loop of `_load_extra_locs` for a discovered
shard file with contents `locs`: `index.posting_locs.update(locs)`, then
`index.df[word] = index.df.get(word, 0) + 1` for every key of `locs`. -/
def mergeShard (pl : List (String × List (Nat × Nat))) (df : String → Nat)
    (locs : List (String × List (Nat × Nat))) :
    List (String × List (Nat × Nat)) × (String → Nat) :=
  (dictUpdate pl locs,
    locs.foldl (fun f p => fun w => if w = p.1 then f w + 1 else f w) df)

/-- `_load_extra_locs` over the discovered shard location files, in
discovery order. -/
def load_extra_locs (pl : List (String × List (Nat × Nat))) (df : String → Nat)
    (shards : List (List (String × List (Nat × Nat)))) :
    List (String × List (Nat × Nat)) × (String → Nat) :=
  shards.foldl (fun s locs => mergeShard s.1 s.2 locs) (pl, df)

/-- The two-document scenario of the specification:
`{1: ["cat","dog","cat"], 2: ["dog"]}`. -/
def docsScenario : List (Nat × List String) :=
  [(1, ["cat", "dog", "cat"]), (2, ["dog"])]

/-- A two-document body index in which the term `"dog"` occurs in both
documents, so its document frequency equals the corpus size `N = 2`. -/
def bodyFrontend : Frontend where
  title_df := fun _ => none
  title_posting := fun _ => []
  anchor_df := fun _ => none
  anchor_posting := fun _ => []
  body_df := fun t => if t = "dog" then some 2 else none
  body_posting := fun t => if t = "dog" then [(1, 3), (2, 1)] else []
  doc_norms := fun _ => none
  N := 2
  id_to_title := fun _ => none

/-- A frontend whose indices and metadata are all empty, for concrete
instantiations. -/
def emptyFrontend : Frontend where
  title_df := fun _ => none
  title_posting := fun _ => []
  anchor_df := fun _ => none
  anchor_posting := fun _ => []
  body_df := fun _ => none
  body_posting := fun _ => []
  doc_norms := fun _ => none
  N := 0
  id_to_title := fun _ => none

/-! ### The fixed-width posting codec -/

theorem length_toBytesBE (k n : Nat) : (toBytesBE k n).length = k := by
  induction k generalizing n with
  | zero => rfl
  | succ k ih => simp [toBytesBE, ih]

theorem fromBytesBE_append_singleton (l : List Nat) (x : Nat) :
    fromBytesBE (l ++ [x]) = fromBytesBE l * 256 + x := by
  simp [fromBytesBE, List.foldl_append]

theorem fromBytesBE_toBytesBE (k n : Nat) :
    fromBytesBE (toBytesBE k n) = n % 256 ^ k := by
  induction k generalizing n with
  | zero => simp [toBytesBE, fromBytesBE, Nat.mod_one]
  | succ k ih =>
    rw [toBytesBE, fromBytesBE_append_singleton, ih, pow_succ, mul_comm (256 ^ k) 256,
      Nat.mod_mul]
    omega

theorem toBytesBE_add (a b n : Nat) :
    toBytesBE (a + b) n = toBytesBE a (n / 256 ^ b) ++ toBytesBE b (n % 256 ^ b) := by
  induction b generalizing n with
  | zero => simp [toBytesBE]
  | succ b ih =>
    have h1 : n / 256 / 256 ^ b = n / 256 ^ (b + 1) := by
      rw [Nat.div_div_eq_div_mul, pow_succ, mul_comm (256 ^ b) 256]
    have h2 : n % 256 ^ (b + 1) / 256 = n / 256 % 256 ^ b := by
      rw [pow_succ, mul_comm (256 ^ b) 256, Nat.mod_mul_right_div_self]
    have h3 : n % 256 ^ (b + 1) % 256 = n % 256 := by
      exact Nat.mod_mod_of_dvd n (dvd_pow_self 256 (Nat.succ_ne_zero b))
    rw [show a + (b + 1) = (a + b) + 1 from rfl, toBytesBE, ih, toBytesBE, h1, h2, h3,
      List.append_assoc]

/-- The value packed into six bytes for one posting entry equals
`doc_id * 2^16 + (tf mod 2^16)`: the shifted id has zero low bits, so the
bitwise or is an addition and the mask is a remainder. -/
theorem encodeVal_eq (d tf : Nat) :
    d <<< 16 ||| (tf &&& TF_MASK) = d * 2 ^ 16 + tf % 2 ^ 16 := by
  have hmask : tf &&& TF_MASK = tf % 2 ^ 16 := Nat.and_pow_two_sub_one_eq_mod tf 16
  have hlt : tf % 2 ^ 16 < 2 ^ 16 := Nat.mod_lt _ (by norm_num)
  rw [hmask, Nat.shiftLeft_eq, mul_comm d (2 ^ 16),
    ← Nat.mul_add_lt_is_or hlt d, mul_comm (2 ^ 16) d]

theorem encodeTuple_eq (d tf : Nat) :
    encodeTuple (d, tf) = toBytesBE 4 d ++ toBytesBE 2 (tf % 2 ^ 16) := by
  have h2 : (256 : Nat) ^ 2 = 2 ^ 16 := by norm_num
  have hm : tf % 2 ^ 16 < 2 ^ 16 := Nat.mod_lt _ (by norm_num)
  have hdiv : (d * 2 ^ 16 + tf % 2 ^ 16) / 256 ^ 2 = d := by
    rw [h2, mul_comm d (2 ^ 16), Nat.mul_add_div (by norm_num), Nat.div_eq_of_lt hm,
      Nat.add_zero]
  have hmod : (d * 2 ^ 16 + tf % 2 ^ 16) % 256 ^ 2 = tf % 2 ^ 16 := by
    rw [h2, add_comm, Nat.add_mul_mod_self_right, Nat.mod_mod_of_dvd _ dvd_rfl]
  rw [encodeTuple, encodeVal_eq, show TUPLE_SIZE = 4 + 2 from rfl, toBytesBE_add,
    hdiv, hmod]

theorem encodeTuple_length (p : Nat × Nat) : (encodeTuple p).length = 6 := by
  rw [encodeTuple, length_toBytesBE]
  rfl

theorem encodeTuple_take (d tf : Nat) : (encodeTuple (d, tf)).take 4 = toBytesBE 4 d := by
  rw [encodeTuple_eq]
  rw [show (4 : Nat) = (toBytesBE 4 d).length from (length_toBytesBE 4 d).symm]
  exact List.take_left _ _

theorem encodeTuple_drop (d tf : Nat) :
    (encodeTuple (d, tf)).drop 4 = toBytesBE 2 (tf % 2 ^ 16) := by
  rw [encodeTuple_eq]
  rw [show (4 : Nat) = (toBytesBE 4 d).length from (length_toBytesBE 4 d).symm]
  exact List.drop_left _ _

/-- C7: the 6-byte big-endian record stores bytes 0-3 as the unsigned
32-bit document id and bytes 4-5 as the term frequency masked to its low
16 bits, so decoding an encoded posting yields `(doc_id, tf mod 2^16)`:
a term frequency of 65536 or more silently loses its high bits. -/
theorem c7_codec_layout (d tf : Nat) (hd : d < 2 ^ 32) :
    (encodeTuple (d, tf)).take 4 = toBytesBE 4 d ∧
    (encodeTuple (d, tf)).drop 4 = toBytesBE 2 (tf % 2 ^ 16) ∧
    (fromBytesBE ((encodeTuple (d, tf)).take 4),
      fromBytesBE (((encodeTuple (d, tf)).drop 4).take 2)) = (d, tf % 2 ^ 16) := by
  refine ⟨encodeTuple_take d tf, encodeTuple_drop d tf, ?_⟩
  rw [encodeTuple_take, encodeTuple_drop, fromBytesBE_toBytesBE,
    List.take_of_length_le (by rw [length_toBytesBE]), fromBytesBE_toBytesBE]
  have h4 : (256 : Nat) ^ 4 = 2 ^ 32 := by norm_num
  have h2 : (256 : Nat) ^ 2 = 2 ^ 16 := by norm_num
  rw [h4, h2, Nat.mod_eq_of_lt hd, Nat.mod_mod_of_dvd _ dvd_rfl]

theorem BLOCK_SIZE_pos : 0 < BLOCK_SIZE := by decide

theorem BLOCK_SIZE_eq : BLOCK_SIZE = 1999998 := rfl

theorem BLOCK_SIZE_mod_six : BLOCK_SIZE % 6 = 0 := by decide

/-! ### Extension order on segment-file systems -/

theorem getD_append_left {l1 l2 : List (List Nat)} {i : Nat} (h : i < l1.length) :
    (l1 ++ l2).getD i [] = l1.getD i [] := by
  simp [List.getD_eq_getElem?_getD, List.getElem?_append_left h]

theorem getD_concat_self (l : List (List Nat)) (x : List Nat) :
    (l ++ [x]).getD l.length [] = x := by
  simp [List.getD_eq_getElem?_getD, List.getElem?_concat_length]

theorem getD_of_le {l : List (List Nat)} {i : Nat} (h : l.length ≤ i) :
    l.getD i [] = [] := by
  simp [List.getD_eq_getElem?_getD, List.getElem?_eq_none h]

theorem filesExtend_refl (fs : List (List Nat)) : FilesExtend fs fs :=
  fun _ => List.take_length _

theorem filesExtend_trans {fs₁ fs₂ fs₃ : List (List Nat)}
    (h12 : FilesExtend fs₁ fs₂) (h23 : FilesExtend fs₂ fs₃) : FilesExtend fs₁ fs₃ := by
  intro i
  have h1 := h12 i
  have h2 := h23 i
  have hle : (fs₁.getD i []).length ≤ (fs₂.getD i []).length := by
    conv_lhs => rw [← h1]
    rw [List.length_take]
    omega
  calc (fs₃.getD i []).take (fs₁.getD i []).length
      = ((fs₃.getD i []).take (fs₂.getD i []).length).take (fs₁.getD i []).length := by
        rw [List.take_take, min_eq_left hle]
    _ = (fs₂.getD i []).take (fs₁.getD i []).length := by rw [h2]
    _ = fs₁.getD i [] := h1

theorem filesExtend_concat (fs : List (List Nat)) (x : List Nat) :
    FilesExtend fs (fs ++ [x]) := by
  intro i
  rcases Nat.lt_or_ge i fs.length with h | h
  · rw [getD_append_left h, List.take_length]
  · rw [getD_of_le h]
    rfl

theorem filesExtend_last {fs : List (List Nat)} {cur cur' : List Nat}
    (h : cur'.take cur.length = cur) : FilesExtend (fs ++ [cur]) (fs ++ [cur']) := by
  intro i
  rcases Nat.lt_or_ge i fs.length with hi | hi
  · rw [getD_append_left hi, getD_append_left hi, List.take_length]
  · rcases Nat.eq_or_lt_of_le hi with heq | hlt
    · subst heq
      rw [getD_concat_self, getD_concat_self]
      exact h
    · have h1 : (fs ++ [cur]).length ≤ i := by simp; omega
      have h2 : (fs ++ [cur']).length ≤ i := by simp; omega
      rw [getD_of_le h1, getD_of_le h2]
      rfl

/-- Extracting a fully-written slice from an extension: if `l` is an
initial segment of `l'` and the range `[off, off + k)` lies inside `l`,
the slice of `l'` there agrees with the slice of `l`. -/
theorem take_drop_of_take_eq {l l' : List Nat} (h : l'.take l.length = l)
    {off k : Nat} (hk : off + k ≤ l.length) :
    (l'.drop off).take k = (l.drop off).take k := by
  conv_rhs => rw [← h]
  rw [List.drop_take, List.take_take, min_eq_left (by omega)]

/-- Witness for C7 at `doc_id = 1`, `tf = 70000`: the encoded term
frequency silently drops to `70000 mod 65536 = 4464`. -/
theorem c7_codec_layout_witness :
    (encodeTuple (1, 70000)).take 4 = toBytesBE 4 1 ∧
    (encodeTuple (1, 70000)).drop 4 = toBytesBE 2 (70000 % 2 ^ 16) ∧
    (fromBytesBE ((encodeTuple (1, 70000)).take 4),
      fromBytesBE (((encodeTuple (1, 70000)).drop 4).take 2)) = (1, 70000 % 2 ^ 16) :=
  c7_codec_layout 1 70000 (by norm_num)

/-! ### Behaviour of the segmented writer -/

theorem writeAux_nil (closed : List (List Nat)) (cur : List Nat) :
    writeAux closed cur [] = ((closed, cur), []) := by
  rw [writeAux]
  simp

theorem writeAux_full (closed : List (List Nat)) (cur b : List Nat)
    (hb : b ≠ []) (hfull : BLOCK_SIZE - cur.length = 0) :
    writeAux closed cur b =
      ((writeAux (closed ++ [cur]) (b.take BLOCK_SIZE) (b.drop BLOCK_SIZE)).1,
        (closed.length + 1, 0) ::
          (writeAux (closed ++ [cur]) (b.take BLOCK_SIZE) (b.drop BLOCK_SIZE)).2) := by
  rw [writeAux]
  simp [hb, hfull]

theorem writeAux_step (closed : List (List Nat)) (cur b : List Nat)
    (hb : b ≠ []) (hnf : ¬ BLOCK_SIZE - cur.length = 0) :
    writeAux closed cur b =
      ((writeAux closed (cur ++ b.take (BLOCK_SIZE - cur.length))
          (b.drop (BLOCK_SIZE - cur.length))).1,
        (closed.length, cur.length) ::
          (writeAux closed (cur ++ b.take (BLOCK_SIZE - cur.length))
            (b.drop (BLOCK_SIZE - cur.length))).2) := by
  rw [writeAux]
  simp [hb, hnf]

theorem read_cons (files : List (List Nat)) (f offset : Nat)
    (locs : List (Nat × Nat)) (n : Nat) :
    MultiFileReader.read files ((f, offset) :: locs) n =
      ((files.getD f []).drop offset).take (min n (BLOCK_SIZE - offset)) ++
        MultiFileReader.read files locs (n - min n (BLOCK_SIZE - offset)) := rfl

/-- Size invariant of the writer loop: if the current file is within
capacity and every closed file is within capacity, the same holds after a
write. -/
theorem writeAux_sizes (closed : List (List Nat)) (cur b : List Nat) :
    cur.length ≤ BLOCK_SIZE → (∀ f ∈ closed, f.length ≤ BLOCK_SIZE) →
      (writeAux closed cur b).1.2.length ≤ BLOCK_SIZE ∧
        ∀ f ∈ (writeAux closed cur b).1.1, f.length ≤ BLOCK_SIZE := by
  induction closed, cur, b using writeAux.induct with
  | case1 closed cur =>
    intro hcur hclosed
    rw [writeAux_nil]
    exact ⟨hcur, hclosed⟩
  | case2 closed cur b hb hfull ih =>
    intro hcur hclosed
    rw [writeAux_full closed cur b hb hfull]
    refine ih ?_ ?_
    · rw [List.length_take]
      omega
    · intro f hf
      rcases List.mem_append.mp hf with h | h
      · exact hclosed f h
      · rw [List.mem_singleton.mp h]
        exact hcur
  | case3 closed cur b hb hnf ih =>
    intro hcur hclosed
    rw [writeAux_step closed cur b hb hnf]
    refine ih ?_ hclosed
    rw [List.length_append, List.length_take]
    omega

/-- The writer loop only extends the file system: every existing file
content stays as an initial segment in place. -/
theorem writeAux_mono (closed : List (List Nat)) (cur b : List Nat) :
    cur.length ≤ BLOCK_SIZE →
      FilesExtend (closed ++ [cur])
        ((writeAux closed cur b).1.1 ++ [(writeAux closed cur b).1.2]) := by
  induction closed, cur, b using writeAux.induct with
  | case1 closed cur =>
    intro _
    rw [writeAux_nil]
    exact filesExtend_refl _
  | case2 closed cur b hb hfull ih =>
    intro hcur
    rw [writeAux_full closed cur b hb hfull]
    refine filesExtend_trans (filesExtend_concat (closed ++ [cur]) (b.take BLOCK_SIZE)) ?_
    have h1 : (b.take BLOCK_SIZE).length ≤ BLOCK_SIZE := by
      rw [List.length_take]; omega
    simpa using ih h1
  | case3 closed cur b hb hnf ih =>
    intro hcur
    rw [writeAux_step closed cur b hb hnf]
    have hmid : FilesExtend (closed ++ [cur])
        (closed ++ [cur ++ b.take (BLOCK_SIZE - cur.length)]) :=
      filesExtend_last (List.take_left cur _)
    have h1 : (cur ++ b.take (BLOCK_SIZE - cur.length)).length ≤ BLOCK_SIZE := by
      rw [List.length_append, List.length_take]; omega
    exact filesExtend_trans hmid (ih h1)

/-- Round-trip through the block store: the locations returned for a
write read back exactly the written payload, from any later state of the
file system (later writes only append elsewhere). -/
theorem writeAux_read (closed : List (List Nat)) (cur b : List Nat) :
    cur.length ≤ BLOCK_SIZE → ∀ fs' : List (List Nat),
      FilesExtend ((writeAux closed cur b).1.1 ++ [(writeAux closed cur b).1.2]) fs' →
        MultiFileReader.read fs' (writeAux closed cur b).2 b.length = b := by
  induction closed, cur, b using writeAux.induct with
  | case1 closed cur =>
    intro _ fs' _
    rw [writeAux_nil]
    rfl
  | case2 closed cur b hb hfull ih =>
    intro hcur fs' hext
    rw [writeAux_full closed cur b hb hfull] at hext ⊢
    rcases le_or_lt b.length BLOCK_SIZE with hle | hgt
    · -- the whole payload fits in the fresh file
      have htake : b.take BLOCK_SIZE = b := List.take_of_length_le hle
      have hdrop : b.drop BLOCK_SIZE = [] := List.drop_eq_nil_of_le hle
      rw [htake, hdrop, writeAux_nil] at hext ⊢
      simp only [read_cons]
      have hx := hext (closed.length + 1)
      have hidx : ((closed ++ [cur]) ++ [b]).getD (closed.length + 1) [] = b := by
        have : (closed ++ [cur]).length = closed.length + 1 := by simp
        rw [← this, getD_concat_self]
      rw [hidx] at hx
      have hmin : min b.length (BLOCK_SIZE - 0) = b.length := by omega
      rw [hmin]
      have hslice : (fs'.getD (closed.length + 1) []).drop 0 = fs'.getD (closed.length + 1) [] :=
        List.drop_zero _
      rw [hslice, hx]
      simp [MultiFileReader.read]
    · -- the fresh file is filled exactly and the rest recurses
      have hlen : (b.take BLOCK_SIZE).length = BLOCK_SIZE := by
        rw [List.length_take]; omega
      have hmin : min b.length (BLOCK_SIZE - 0) = BLOCK_SIZE := by omega
      simp only [read_cons, hmin]
      have hrest := ih (by rw [hlen]) fs' hext
      have hmid := filesExtend_trans (writeAux_mono (closed ++ [cur]) (b.take BLOCK_SIZE)
        (b.drop BLOCK_SIZE) (by rw [hlen])) hext
      have hx := hmid (closed.length + 1)
      have hidx : ((closed ++ [cur]) ++ [b.take BLOCK_SIZE]).getD (closed.length + 1) []
          = b.take BLOCK_SIZE := by
        have : (closed ++ [cur]).length = closed.length + 1 := by simp
        rw [← this, getD_concat_self]
      rw [hidx, hlen] at hx
      have hslice : ((fs'.getD (closed.length + 1) []).drop 0).take BLOCK_SIZE
          = b.take BLOCK_SIZE := by
        rw [List.drop_zero]
        exact hx
      rw [hslice]
      have hn : b.length - BLOCK_SIZE = (b.drop BLOCK_SIZE).length := by
        rw [List.length_drop]
      rw [hn, hrest, List.take_append_drop]
  | case3 closed cur b hb hnf ih =>
    intro hcur fs' hext
    rw [writeAux_step closed cur b hb hnf] at hext ⊢
    rcases le_or_lt b.length (BLOCK_SIZE - cur.length) with hle | hgt
    · have htake : b.take (BLOCK_SIZE - cur.length) = b := List.take_of_length_le hle
      have hdrop : b.drop (BLOCK_SIZE - cur.length) = [] := List.drop_eq_nil_of_le hle
      rw [htake, hdrop, writeAux_nil] at hext ⊢
      simp only [read_cons]
      have hmin : min b.length (BLOCK_SIZE - cur.length) = b.length := min_eq_left hle
      rw [hmin]
      have hx := hext closed.length
      rw [getD_concat_self] at hx
      have hslice : ((fs'.getD closed.length []).drop cur.length).take b.length = b := by
        have hk : cur.length + b.length ≤ (cur ++ b).length := by simp
        rw [take_drop_of_take_eq hx hk, List.drop_left, List.take_length]
      rw [hslice]
      simp [MultiFileReader.read]
    · have hlen : (cur ++ b.take (BLOCK_SIZE - cur.length)).length = BLOCK_SIZE := by
        rw [List.length_append, List.length_take]; omega
      have hmin : min b.length (BLOCK_SIZE - cur.length) = BLOCK_SIZE - cur.length :=
        min_eq_right (Nat.le_of_lt hgt)
      simp only [read_cons, hmin]
      have hrest := ih (by rw [hlen]) fs' hext
      have hmid := filesExtend_trans (writeAux_mono closed
        (cur ++ b.take (BLOCK_SIZE - cur.length)) (b.drop (BLOCK_SIZE - cur.length))
        (by rw [hlen])) hext
      have hx := hmid closed.length
      rw [getD_concat_self] at hx
      have hslice : ((fs'.getD closed.length []).drop cur.length).take (BLOCK_SIZE - cur.length)
          = b.take (BLOCK_SIZE - cur.length) := by
        have hk : cur.length + (BLOCK_SIZE - cur.length)
            ≤ (cur ++ b.take (BLOCK_SIZE - cur.length)).length := by
          rw [hlen]; omega
        rw [take_drop_of_take_eq hx hk, List.drop_left]
        exact List.take_of_length_le (by rw [List.length_take]; omega)
      rw [hslice]
      have hn : b.length - (BLOCK_SIZE - cur.length)
          = (b.drop (BLOCK_SIZE - cur.length)).length := by
        rw [List.length_drop]
      rw [hn, hrest, List.take_append_drop]

theorem drop_append_len (l1 l2 : List Nat) (k : Nat) :
    (l1 ++ l2).drop (l1.length + k) = l2.drop k := by
  rw [← List.drop_drop, List.drop_left]

/-- The first location recorded by a nonempty write: a fresh file at
offset 0 when the current file is full, otherwise the current file at its
current position. -/
theorem writeAux_head (closed : List (List Nat)) (cur b : List Nat) (hb : b ≠ []) :
    (writeAux closed cur b).2.head? =
      some (if BLOCK_SIZE - cur.length = 0 then (closed.length + 1, 0)
        else (closed.length, cur.length)) := by
  by_cases hfull : BLOCK_SIZE - cur.length = 0
  · rw [writeAux_full closed cur b hb hfull, if_pos hfull]
    rfl
  · rw [writeAux_step closed cur b hb hfull, if_neg hfull]
    rfl

/-- The recorded locations of one write use consecutive file sequence
numbers, in file order. -/
theorem writeAux_chain (closed : List (List Nat)) (cur b : List Nat) :
    List.Chain' (fun p q : Nat × Nat => q.1 = p.1 + 1) (writeAux closed cur b).2 := by
  induction closed, cur, b using writeAux.induct with
  | case1 closed cur =>
    rw [writeAux_nil]
    simp
  | case2 closed cur b hb hfull ih =>
    rw [writeAux_full closed cur b hb hfull]
    refine List.chain'_cons'.mpr ⟨?_, ih⟩
    intro y hy
    by_cases hd : b.drop BLOCK_SIZE = []
    · rw [hd, writeAux_nil] at hy
      simp at hy
    · have hblen : ¬ b.length ≤ BLOCK_SIZE := fun h => hd (List.drop_eq_nil_of_le h)
      rw [writeAux_head _ _ _ hd] at hy
      have hcond : BLOCK_SIZE - (b.take BLOCK_SIZE).length = 0 := by
        rw [List.length_take]; omega
      rw [if_pos hcond] at hy
      obtain rfl : ((closed ++ [cur]).length + 1, 0) = y := by simpa using hy
      simp
  | case3 closed cur b hb hnf ih =>
    rw [writeAux_step closed cur b hb hnf]
    refine List.chain'_cons'.mpr ⟨?_, ih⟩
    intro y hy
    by_cases hd : b.drop (BLOCK_SIZE - cur.length) = []
    · rw [hd, writeAux_nil] at hy
      simp at hy
    · have hblen : ¬ b.length ≤ BLOCK_SIZE - cur.length :=
        fun h => hd (List.drop_eq_nil_of_le h)
      rw [writeAux_head _ _ _ hd] at hy
      have hcond : BLOCK_SIZE - (cur ++ b.take (BLOCK_SIZE - cur.length)).length = 0 := by
        rw [List.length_append, List.length_take]; omega
      rw [if_pos hcond] at hy
      obtain rfl : (closed.length + 1, 0) = y := by simpa using hy
      rfl

/-- Each recorded chunk holds at most `BLOCK_SIZE` bytes, so a write of
`n` bytes records at least `n / BLOCK_SIZE` locations. -/
theorem writeAux_count (closed : List (List Nat)) (cur b : List Nat) :
    b.length ≤ (writeAux closed cur b).2.length * BLOCK_SIZE := by
  have hB : BLOCK_SIZE = 1999998 := rfl
  induction closed, cur, b using writeAux.induct with
  | case1 closed cur =>
    rw [writeAux_nil]
    simp
  | case2 closed cur b hb hfull ih =>
    rw [writeAux_full closed cur b hb hfull]
    rw [List.length_drop] at ih
    simp only [List.length_cons]
    rw [hB] at ih ⊢
    omega
  | case3 closed cur b hb hnf ih =>
    rw [writeAux_step closed cur b hb hnf]
    rw [List.length_drop] at ih
    simp only [List.length_cons]
    rw [hB] at ih ⊢
    omega

/-- Six-byte alignment: when the current position and the payload length
are multiples of 6 (and `BLOCK_SIZE` is one), every recorded offset and
the final position are multiples of 6. -/
theorem writeAux_align (closed : List (List Nat)) (cur b : List Nat) :
    cur.length % 6 = 0 → b.length % 6 = 0 →
      (∀ loc ∈ (writeAux closed cur b).2, loc.2 % 6 = 0) ∧
        (writeAux closed cur b).1.2.length % 6 = 0 := by
  have hB : BLOCK_SIZE = 1999998 := rfl
  induction closed, cur, b using writeAux.induct with
  | case1 closed cur =>
    intro hc6 _
    rw [writeAux_nil]
    exact ⟨by simp, hc6⟩
  | case2 closed cur b hb hfull ih =>
    intro hc6 hb6
    rw [writeAux_full closed cur b hb hfull]
    have h1 : (b.take BLOCK_SIZE).length % 6 = 0 := by
      rw [List.length_take]; omega
    have h2 : (b.drop BLOCK_SIZE).length % 6 = 0 := by
      rw [List.length_drop]; omega
    obtain ⟨ihl, ihc⟩ := ih h1 h2
    refine ⟨?_, ihc⟩
    intro loc hloc
    rcases List.mem_cons.mp hloc with h | h
    · simp [h]
    · exact ihl loc h
  | case3 closed cur b hb hnf ih =>
    intro hc6 hb6
    rw [writeAux_step closed cur b hb hnf]
    have h1 : (cur ++ b.take (BLOCK_SIZE - cur.length)).length % 6 = 0 := by
      rw [List.length_append, List.length_take]; omega
    have h2 : (b.drop (BLOCK_SIZE - cur.length)).length % 6 = 0 := by
      rw [List.length_drop]; omega
    obtain ⟨ihl, ihc⟩ := ih h1 h2
    refine ⟨?_, ihc⟩
    intro loc hloc
    rcases List.mem_cons.mp hloc with h | h
    · rw [h]
      exact hc6
    · exact ihl loc h

set_option maxRecDepth 4000 in
/-- Record containment: under 6-byte alignment, every aligned 6-byte
range of the payload ends up contiguous inside a single segment file, at
an offset that is a multiple of 6 (no record straddles a file boundary). -/
theorem writeAux_record (closed : List (List Nat)) (cur b : List Nat) :
    cur.length ≤ BLOCK_SIZE → cur.length % 6 = 0 → b.length % 6 = 0 →
      ∀ i, 6 * i + 6 ≤ b.length → ∀ fs' : List (List Nat),
        FilesExtend ((writeAux closed cur b).1.1 ++ [(writeAux closed cur b).1.2]) fs' →
          ∃ f off, off % 6 = 0 ∧
            ((fs'.getD f []).drop off).take 6 = (b.drop (6 * i)).take 6 := by
  have hB : BLOCK_SIZE = 1999998 := rfl
  induction closed, cur, b using writeAux.induct with
  | case1 closed cur =>
    intro _ _ _ i hi _ _
    simp at hi
  | case2 closed cur b hb hfull ih =>
    intro hcur hc6 hb6 i hi fs' hext
    rw [writeAux_full closed cur b hb hfull] at hext
    by_cases hcase : 6 * i + 6 ≤ BLOCK_SIZE
    · refine ⟨closed.length + 1, 6 * i, by omega, ?_⟩
      have hmid := filesExtend_trans (writeAux_mono (closed ++ [cur]) (b.take BLOCK_SIZE)
        (b.drop BLOCK_SIZE) (by rw [List.length_take]; omega)) hext
      have hx := hmid (closed.length + 1)
      have hidx : ((closed ++ [cur]) ++ [b.take BLOCK_SIZE]).getD (closed.length + 1) []
          = b.take BLOCK_SIZE := by
        have h : (closed ++ [cur]).length = closed.length + 1 := by simp
        rw [← h, getD_concat_self]
      rw [hidx] at hx
      have hk : 6 * i + 6 ≤ (b.take BLOCK_SIZE).length := by
        rw [List.length_take]; omega
      rw [take_drop_of_take_eq hx hk, List.drop_take, List.take_take,
        min_eq_left (by omega)]
    · obtain ⟨f, off, hoff, hs⟩ := ih (by rw [List.length_take]; omega)
        (by rw [List.length_take]; omega) (by rw [List.length_drop]; omega)
        (i - BLOCK_SIZE / 6) (by rw [List.length_drop]; omega) fs' hext
      refine ⟨f, off, hoff, ?_⟩
      rw [hs, List.drop_drop]
      have harg : BLOCK_SIZE + 6 * (i - BLOCK_SIZE / 6) = 6 * i := by omega
      rw [harg]
  | case3 closed cur b hb hnf ih =>
    intro hcur hc6 hb6 i hi fs' hext
    rw [writeAux_step closed cur b hb hnf] at hext
    by_cases hcase : 6 * i + 6 ≤ BLOCK_SIZE - cur.length
    · refine ⟨closed.length, cur.length + 6 * i, by omega, ?_⟩
      have hmid := filesExtend_trans (writeAux_mono closed
        (cur ++ b.take (BLOCK_SIZE - cur.length)) (b.drop (BLOCK_SIZE - cur.length))
        (by rw [List.length_append, List.length_take]; omega)) hext
      have hx := hmid closed.length
      rw [getD_concat_self] at hx
      have hk : cur.length + 6 * i + 6 ≤ (cur ++ b.take (BLOCK_SIZE - cur.length)).length := by
        rw [List.length_append, List.length_take]; omega
      have hk' : (cur.length + 6 * i) + 6 ≤ (cur ++ b.take (BLOCK_SIZE - cur.length)).length := by
        omega
      rw [take_drop_of_take_eq hx hk', drop_append_len, List.drop_take, List.take_take,
        min_eq_left (by omega)]
    · obtain ⟨f, off, hoff, hs⟩ := ih
        (by rw [List.length_append, List.length_take]; omega)
        (by rw [List.length_append, List.length_take]; omega)
        (by rw [List.length_drop]; omega)
        (i - (BLOCK_SIZE - cur.length) / 6) (by rw [List.length_drop]; omega) fs' hext
      refine ⟨f, off, hoff, ?_⟩
      rw [hs, List.drop_drop]
      have harg : BLOCK_SIZE - cur.length + 6 * (i - (BLOCK_SIZE - cur.length) / 6) = 6 * i := by
        omega
      rw [harg]

/-! ### Encoding and decoding whole posting lists -/

theorem encodePostings_nil : encodePostings [] = [] := by
  simp [encodePostings]

theorem encodePostings_cons (p : Nat × Nat) (pl : List (Nat × Nat)) :
    encodePostings (p :: pl) = encodeTuple p ++ encodePostings pl := by
  simp [encodePostings]

theorem encodePostings_length (pl : List (Nat × Nat)) :
    (encodePostings pl).length = 6 * pl.length := by
  induction pl with
  | nil => simp [encodePostings]
  | cons p pl ih =>
    rw [encodePostings_cons, List.length_append, encodeTuple_length, ih,
      List.length_cons]
    ring

theorem decodePostings_zero (b : List Nat) : decodePostings b 0 = [] := by
  simp [decodePostings]

theorem decodePostings_succ (b : List Nat) (n : Nat) :
    decodePostings b (n + 1) =
      (fromBytesBE (b.take 4), fromBytesBE ((b.drop 4).take 2)) ::
        decodePostings (b.drop TUPLE_SIZE) n := by
  rw [decodePostings, decodePostings, List.range_succ_eq_map, List.map_cons,
    List.map_map]
  refine congrArg₂ List.cons (by simp) (List.map_congr_left ?_)
  intro i _
  have e1 : TUPLE_SIZE + i * TUPLE_SIZE = (i + 1) * TUPLE_SIZE := by
    rw [show TUPLE_SIZE = 6 from rfl]
    ring
  have e2 : TUPLE_SIZE + (i * TUPLE_SIZE + 4) = (i + 1) * TUPLE_SIZE + 4 := by
    rw [show TUPLE_SIZE = 6 from rfl]
    ring
  simp only [Function.comp_apply, List.drop_drop, e1, e2, Nat.succ_eq_add_one]

theorem decode_encode (pl : List (Nat × Nat)) (h : ∀ p ∈ pl, p.1 < 2 ^ 32) :
    decodePostings (encodePostings pl) pl.length =
      pl.map fun p => (p.1, p.2 % 2 ^ 16) := by
  induction pl with
  | nil => simp [encodePostings, decodePostings]
  | cons p pl ih =>
    obtain ⟨d, tf⟩ := p
    have hd : d < 2 ^ 32 := h (d, tf) (List.mem_cons_self _ _)
    rw [List.length_cons, decodePostings_succ, encodePostings_cons]
    have hlen := encodeTuple_length (d, tf)
    have htake4 : (encodeTuple (d, tf) ++ encodePostings pl).take 4
        = (encodeTuple (d, tf)).take 4 :=
      List.take_append_of_le_length (by omega)
    have hdrop4 : (encodeTuple (d, tf) ++ encodePostings pl).drop 4
        = (encodeTuple (d, tf)).drop 4 ++ encodePostings pl :=
      List.drop_append_of_le_length (by omega)
    have htake2 : ((encodeTuple (d, tf)).drop 4 ++ encodePostings pl).take 2
        = ((encodeTuple (d, tf)).drop 4).take 2 :=
      List.take_append_of_le_length (by rw [List.length_drop]; omega)
    have hdrop6 : (encodeTuple (d, tf) ++ encodePostings pl).drop TUPLE_SIZE
        = encodePostings pl := by
      rw [show TUPLE_SIZE = (encodeTuple (d, tf)).length from hlen.symm, List.drop_left]
    have hhead := (c7_codec_layout d tf hd).2.2
    rw [htake4, hdrop4, htake2, hdrop6, List.map_cons]
    have hrest := ih fun q hq => h q (List.mem_cons_of_mem _ hq)
    rw [hrest, hhead]

theorem decode_encode_exact (pl : List (Nat × Nat))
    (h : ∀ p ∈ pl, p.1 < 2 ^ 32 ∧ p.2 < 2 ^ 16) :
    decodePostings (encodePostings pl) pl.length = pl := by
  rw [decode_encode pl fun p hp => (h p hp).1]
  conv_rhs => rw [← List.map_id pl]
  apply List.map_congr_left
  intro p hp
  obtain ⟨pd, pt⟩ := p
  simp only [id_eq]
  exact Prod.ext rfl (Nat.mod_eq_of_lt (h (pd, pt) hp).2)

/-! ### Sequences of writes -/

theorem runWrites_sizes (bs : List (List Nat)) : ∀ st : MultiFileWriter,
    st.cur.length ≤ BLOCK_SIZE → (∀ f ∈ st.closed, f.length ≤ BLOCK_SIZE) →
      (runWrites st bs).1.cur.length ≤ BLOCK_SIZE ∧
        ∀ f ∈ (runWrites st bs).1.closed, f.length ≤ BLOCK_SIZE := by
  induction bs with
  | nil =>
    intro st h1 h2
    exact ⟨h1, h2⟩
  | cons b bs ih =>
    intro st h1 h2
    obtain ⟨h1', h2'⟩ := writeAux_sizes st.closed st.cur b h1 h2
    exact ih (st.write b).1 h1' h2'

theorem runWrites_mono (bs : List (List Nat)) : ∀ st : MultiFileWriter,
    st.cur.length ≤ BLOCK_SIZE → (∀ f ∈ st.closed, f.length ≤ BLOCK_SIZE) →
      FilesExtend st.files (runWrites st bs).1.files := by
  induction bs with
  | nil =>
    intro st _ _
    exact filesExtend_refl _
  | cons b bs ih =>
    intro st h1 h2
    obtain ⟨h1', h2'⟩ := writeAux_sizes st.closed st.cur b h1 h2
    exact filesExtend_trans (writeAux_mono st.closed st.cur b h1)
      (ih (st.write b).1 h1' h2')

theorem runWrites_read (bs : List (List Nat)) : ∀ st : MultiFileWriter,
    st.cur.length ≤ BLOCK_SIZE → (∀ f ∈ st.closed, f.length ≤ BLOCK_SIZE) →
      ∀ k, MultiFileReader.read ((runWrites st bs).1.files)
          (((runWrites st bs).2).getD k []) ((bs.getD k []).length)
        = bs.getD k [] := by
  induction bs with
  | nil =>
    intro st _ _ k
    rfl
  | cons b bs ih =>
    intro st h1 h2 k
    obtain ⟨h1', h2'⟩ := writeAux_sizes st.closed st.cur b h1 h2
    cases k with
    | zero =>
      exact writeAux_read st.closed st.cur b h1 _
        (runWrites_mono bs (st.write b).1 h1' h2')
    | succ k =>
      exact ih (st.write b).1 h1' h2' k

theorem runWrites_chain (bs : List (List Nat)) : ∀ st : MultiFileWriter,
    ∀ locs ∈ (runWrites st bs).2,
      List.Chain' (fun p q : Nat × Nat => q.1 = p.1 + 1) locs := by
  induction bs with
  | nil =>
    intro st locs hlocs
    simp [runWrites] at hlocs
  | cons b bs ih =>
    intro st locs hlocs
    rcases List.mem_cons.mp hlocs with h | h
    · rw [h]
      exact writeAux_chain st.closed st.cur b
    · exact ih (st.write b).1 locs h

theorem runWrites_count (bs : List (List Nat)) : ∀ (st : MultiFileWriter) (k : Nat),
    (bs.getD k []).length ≤ (((runWrites st bs).2).getD k []).length * BLOCK_SIZE := by
  induction bs with
  | nil =>
    intro st k
    simp [runWrites]
  | cons b bs ih =>
    intro st k
    cases k with
    | zero => exact writeAux_count st.closed st.cur b
    | succ k => exact ih (st.write b).1 k

/-- C2: over any sequence of `write` calls on a fresh `MultiFileWriter`,
no segment file ever exceeds the `BLOCK_SIZE` capacity of 1999998 bytes;
each call returns one location per contiguous chunk, in file order with
consecutive sequence numbers; reading any call's recorded locations from
the final file system returns exactly that call's payload (so no recorded
location mixes bytes of two write calls); and a payload longer than the
capacity is split over at least two locations. -/
theorem c2_segment_rollover (bs : List (List Nat)) :
    (∀ f ∈ (runWrites MultiFileWriter.start bs).1.files, f.length ≤ BLOCK_SIZE) ∧
    (∀ locs ∈ (runWrites MultiFileWriter.start bs).2,
      List.Chain' (fun p q : Nat × Nat => q.1 = p.1 + 1) locs) ∧
    (∀ k, MultiFileReader.read ((runWrites MultiFileWriter.start bs).1.files)
        (((runWrites MultiFileWriter.start bs).2).getD k []) ((bs.getD k []).length)
      = bs.getD k []) ∧
    (∀ k, BLOCK_SIZE < (bs.getD k []).length →
      2 ≤ (((runWrites MultiFileWriter.start bs).2).getD k []).length) := by
  have hstart1 : MultiFileWriter.start.cur.length ≤ BLOCK_SIZE := by
    simp [MultiFileWriter.start]
  have hstart2 : ∀ f ∈ MultiFileWriter.start.closed, f.length ≤ BLOCK_SIZE := by
    simp [MultiFileWriter.start]
  refine ⟨?_, ?_, ?_, ?_⟩
  · intro f hf
    obtain ⟨h1, h2⟩ := runWrites_sizes bs MultiFileWriter.start hstart1 hstart2
    rcases List.mem_append.mp hf with h | h
    · exact h2 f h
    · rw [List.mem_singleton.mp h]
      exact h1
  · exact runWrites_chain bs MultiFileWriter.start
  · exact runWrites_read bs MultiFileWriter.start hstart1 hstart2
  · intro k hk
    have hc := runWrites_count bs MultiFileWriter.start k
    have hB : BLOCK_SIZE = 1999998 := rfl
    rw [hB] at hk hc
    omega

/-- Witness for C2 on the single-call sequence whose payload is
`BLOCK_SIZE + 6` zero bytes: the write records at least two locations. -/
theorem c2_segment_rollover_witness :
    2 ≤ (((runWrites MultiFileWriter.start [List.replicate (BLOCK_SIZE + 6) 0]).2).getD 0 []).length :=
  (c2_segment_rollover [List.replicate (BLOCK_SIZE + 6) 0]).2.2.2 0
    (by simp)

/-! ### Round-trip of a posting list through the store (C1) -/

theorem write_single (w : String) (pl : List (Nat × Nat)) :
    write_a_posting_list [(w, pl)] =
      ((MultiFileWriter.start.write (encodePostings pl)).1,
        [(w, (MultiFileWriter.start.write (encodePostings pl)).2)]) := rfl

/-- C1: for every posting list whose document ids fit in 32 bits and term
frequencies fit in 16 bits, encoding and writing it through
`write_a_posting_list` with a fresh `MultiFileWriter` and reading it back
with `read_a_posting_list` (with `df[w]` equal to the number of postings,
as construction guarantees) returns exactly the original sequence of
pairs, in order. -/
theorem read_single (df : String → Nat) (locs : List (Nat × Nat))
    (files : List (List Nat)) (w : String) :
    read_a_posting_list ⟨df, [(w, locs)]⟩ files w =
      decodePostings (MultiFileReader.read files locs (df w * TUPLE_SIZE)) (df w) := by
  rw [read_a_posting_list]
  simp [List.lookup]

/-- C1: for every posting list whose document ids fit in 32 bits and term
frequencies fit in 16 bits, encoding and writing it through
`write_a_posting_list` with a fresh `MultiFileWriter` and reading it back
with `read_a_posting_list` (with `df[w]` equal to the number of postings,
as construction guarantees) returns exactly the original sequence of
pairs, in order. -/
theorem c1_roundtrip (w : String) (pl : List (Nat × Nat))
    (hpl : ∀ p ∈ pl, p.1 < 2 ^ 32 ∧ p.2 < 2 ^ 16) :
    read_a_posting_list
      ⟨fun x => if x = w then pl.length else 0, (write_a_posting_list [(w, pl)]).2⟩
      (write_a_posting_list [(w, pl)]).1.files w = pl := by
  rw [write_single, read_single]
  have hdf : (if w = w then pl.length else 0) = pl.length := if_pos rfl
  rw [hdf]
  have hn : pl.length * TUPLE_SIZE = (encodePostings pl).length := by
    rw [encodePostings_length, show TUPLE_SIZE = 6 from rfl, Nat.mul_comm]
  rw [hn]
  have hread := writeAux_read [] [] (encodePostings pl) (by simp) _
    (filesExtend_refl ((writeAux [] [] (encodePostings pl)).1.1 ++
      [(writeAux [] [] (encodePostings pl)).1.2]))
  show decodePostings
      (MultiFileReader.read
        ((writeAux [] [] (encodePostings pl)).1.1 ++
          [(writeAux [] [] (encodePostings pl)).1.2])
        (writeAux [] [] (encodePostings pl)).2 (encodePostings pl).length)
      pl.length = pl
  rw [hread]
  exact decode_encode_exact pl hpl

/-- Witness for C1 at the posting list `[(5, 7)]` under term `"a"`. -/
theorem c1_roundtrip_witness :
    read_a_posting_list
      ⟨fun x => if x = "a" then ([((5 : Nat), (7 : Nat))] : List (Nat × Nat)).length else 0,
        (write_a_posting_list [("a", [(5, 7)])]).2⟩
      (write_a_posting_list [("a", [(5, 7)])]).1.files "a" = [(5, 7)] :=
  c1_roundtrip "a" [(5, 7)] (by decide)

/-! ### Six-byte alignment across `write_a_posting_list` (C6) -/

theorem encodePostings_slice (pl : List (Nat × Nat)) :
    ∀ i, i < pl.length →
      ((encodePostings pl).drop (6 * i)).take 6 = encodeTuple (pl.getD i (0, 0)) := by
  induction pl with
  | nil =>
    intro i hi
    simp at hi
  | cons p pl ih =>
    intro i hi
    cases i with
    | zero =>
      rw [encodePostings_cons]
      simp only [Nat.mul_zero, List.drop_zero, List.getD_cons_zero]
      rw [List.take_append_of_le_length (by rw [encodeTuple_length]),
        List.take_of_length_le (by rw [encodeTuple_length])]
    | succ i =>
      rw [encodePostings_cons]
      have h6 : 6 * (i + 1) = (encodeTuple p).length + 6 * i := by
        rw [encodeTuple_length]
        ring
      rw [h6, drop_append_len, List.getD_cons_succ]
      exact ih i (by simpa using hi)

theorem dextend_forall {P : Nat × Nat → Prop} :
    ∀ (acc : List (String × List (Nat × Nat))) (w : String) (locs : List (Nat × Nat)),
      (∀ e ∈ acc, ∀ l ∈ e.2, P l) → (∀ l ∈ locs, P l) →
        ∀ e ∈ dextend acc w locs, ∀ l ∈ e.2, P l := by
  intro acc
  induction acc with
  | nil =>
    intro w locs _ hlocs e he l hl
    rw [dextend] at he
    rw [List.mem_singleton.mp he] at hl
    exact hlocs l hl
  | cons p rest ih =>
    intro w locs hacc hlocs e he l hl
    rw [dextend] at he
    by_cases hw : p.1 = w
    · rw [if_pos hw] at he
      rcases List.mem_cons.mp he with h | h
      · rw [h] at hl
        rcases List.mem_append.mp hl with h2 | h2
        · exact hacc p (List.mem_cons_self _ _) l h2
        · exact hlocs l h2
      · exact hacc e (List.mem_cons_of_mem _ h) l hl
    · rw [if_neg hw] at he
      rcases List.mem_cons.mp he with h | h
      · rw [h] at hl
        exact hacc p (List.mem_cons_self _ _) l hl
      · exact ih w locs (fun e2 he2 => hacc e2 (List.mem_cons_of_mem _ he2)) hlocs e h l hl

theorem writePLAux_cons (st : MultiFileWriter) (acc : List (String × List (Nat × Nat)))
    (w : String) (pl : List (Nat × Nat)) (rest : List (String × List (Nat × Nat))) :
    writePLAux st acc ((w, pl) :: rest) =
      writePLAux (st.write (encodePostings pl)).1
        (dextend acc w (st.write (encodePostings pl)).2) rest := rfl

theorem writePLAux_inv (rest : List (String × List (Nat × Nat))) :
    ∀ (st : MultiFileWriter) (acc : List (String × List (Nat × Nat))),
      st.cur.length ≤ BLOCK_SIZE → (∀ f ∈ st.closed, f.length ≤ BLOCK_SIZE) →
        st.cur.length % 6 = 0 →
          (writePLAux st acc rest).1.cur.length ≤ BLOCK_SIZE ∧
            (∀ f ∈ (writePLAux st acc rest).1.closed, f.length ≤ BLOCK_SIZE) ∧
            (writePLAux st acc rest).1.cur.length % 6 = 0 := by
  induction rest with
  | nil =>
    intro st acc h1 h2 h3
    exact ⟨h1, h2, h3⟩
  | cons wpl rest ih =>
    intro st acc h1 h2 h3
    obtain ⟨w, pl⟩ := wpl
    obtain ⟨h1', h2'⟩ := writeAux_sizes st.closed st.cur (encodePostings pl) h1 h2
    have h6 : (encodePostings pl).length % 6 = 0 := by
      rw [encodePostings_length]
      omega
    have h3' := (writeAux_align st.closed st.cur (encodePostings pl) h3 h6).2
    exact ih (st.write (encodePostings pl)).1 (dextend acc w (st.write (encodePostings pl)).2)
      h1' h2' h3'

theorem writePLAux_mono (rest : List (String × List (Nat × Nat))) :
    ∀ (st : MultiFileWriter) (acc : List (String × List (Nat × Nat))),
      st.cur.length ≤ BLOCK_SIZE → (∀ f ∈ st.closed, f.length ≤ BLOCK_SIZE) →
        FilesExtend st.files (writePLAux st acc rest).1.files := by
  induction rest with
  | nil =>
    intro st acc _ _
    exact filesExtend_refl _
  | cons wpl rest ih =>
    intro st acc h1 h2
    obtain ⟨w, pl⟩ := wpl
    obtain ⟨h1', h2'⟩ := writeAux_sizes st.closed st.cur (encodePostings pl) h1 h2
    exact filesExtend_trans (writeAux_mono st.closed st.cur (encodePostings pl) h1)
      (ih (st.write (encodePostings pl)).1 _ h1' h2')

theorem writePLAux_offsets (rest : List (String × List (Nat × Nat))) :
    ∀ (st : MultiFileWriter) (acc : List (String × List (Nat × Nat))),
      st.cur.length ≤ BLOCK_SIZE → (∀ f ∈ st.closed, f.length ≤ BLOCK_SIZE) →
        st.cur.length % 6 = 0 →
        (∀ e ∈ acc, ∀ l ∈ e.2, l.2 % 6 = 0) →
          ∀ e ∈ (writePLAux st acc rest).2, ∀ l ∈ e.2, l.2 % 6 = 0 := by
  induction rest with
  | nil =>
    intro st acc _ _ _ hacc
    exact hacc
  | cons wpl rest ih =>
    intro st acc h1 h2 h3 hacc
    obtain ⟨w, pl⟩ := wpl
    obtain ⟨h1', h2'⟩ := writeAux_sizes st.closed st.cur (encodePostings pl) h1 h2
    have h6 : (encodePostings pl).length % 6 = 0 := by
      rw [encodePostings_length]
      omega
    obtain ⟨hlocs, h3'⟩ := writeAux_align st.closed st.cur (encodePostings pl) h3 h6
    exact ih (st.write (encodePostings pl)).1 _ h1' h2' h3'
      (dextend_forall acc w (st.write (encodePostings pl)).2 hacc hlocs)

theorem writePLAux_record (rest : List (String × List (Nat × Nat))) :
    ∀ (st : MultiFileWriter) (acc : List (String × List (Nat × Nat))),
      st.cur.length ≤ BLOCK_SIZE → (∀ f ∈ st.closed, f.length ≤ BLOCK_SIZE) →
        st.cur.length % 6 = 0 →
          ∀ k i, i < ((rest.getD k ("", [])).2).length →
            ∃ f off, off % 6 = 0 ∧
              ((((writePLAux st acc rest).1.files).getD f []).drop off).take 6
                = encodeTuple (((rest.getD k ("", [])).2).getD i (0, 0)) := by
  induction rest with
  | nil =>
    intro st acc _ _ _ k i hi
    simp at hi
  | cons wpl rest ih =>
    intro st acc h1 h2 h3 k i hi
    obtain ⟨w, pl⟩ := wpl
    obtain ⟨h1', h2'⟩ := writeAux_sizes st.closed st.cur (encodePostings pl) h1 h2
    have h6 : (encodePostings pl).length % 6 = 0 := by
      rw [encodePostings_length]
      omega
    have h3' := (writeAux_align st.closed st.cur (encodePostings pl) h3 h6).2
    cases k with
    | zero =>
      have hi' : i < pl.length := by simpa using hi
      have hrec := writeAux_record st.closed st.cur (encodePostings pl) h1 h3 h6 i
        (by rw [encodePostings_length]; omega)
        ((writePLAux (st.write (encodePostings pl)).1
          (dextend acc w (st.write (encodePostings pl)).2) rest).1.files)
        (writePLAux_mono rest (st.write (encodePostings pl)).1 _ h1' h2')
      obtain ⟨f, off, hoff, hs⟩ := hrec
      refine ⟨f, off, hoff, ?_⟩
      rw [writePLAux_cons, hs, encodePostings_slice pl i hi']
      simp
    | succ k =>
      have hnext := ih (st.write (encodePostings pl)).1
        (dextend acc w (st.write (encodePostings pl)).2) h1' h2' h3' k i
        (by simpa using hi)
      rw [writePLAux_cons, List.getD_cons_succ]
      exact hnext

/-- C6: for posting data written by `write_a_posting_list` through a
fresh `MultiFileWriter` (every payload a multiple of 6 bytes, the
capacity `1999998 = 6 * 333333` likewise), every recorded chunk offset is
a multiple of 6, and every 6-byte posting record lies contiguously inside
a single segment file: no record is split across two files. -/
theorem c6_no_record_split (list_w_pl : List (String × List (Nat × Nat))) :
    (∀ e ∈ (write_a_posting_list list_w_pl).2, ∀ loc ∈ e.2, loc.2 % 6 = 0) ∧
    (∀ k i, i < ((list_w_pl.getD k ("", [])).2).length →
      ∃ f off, off % 6 = 0 ∧
        ((((write_a_posting_list list_w_pl).1.files).getD f []).drop off).take 6
          = encodeTuple (((list_w_pl.getD k ("", [])).2).getD i (0, 0))) := by
  constructor
  · refine writePLAux_offsets list_w_pl MultiFileWriter.start [] ?_ ?_ ?_ ?_
    · simp [MultiFileWriter.start]
    · simp [MultiFileWriter.start]
    · simp [MultiFileWriter.start]
    · simp
  · refine writePLAux_record list_w_pl MultiFileWriter.start [] ?_ ?_ ?_
    · simp [MultiFileWriter.start]
    · simp [MultiFileWriter.start]
    · simp [MultiFileWriter.start]

/-- Witness for C6: writing the posting list `[(5, 7), (9, 70000)]` for
term `"a"`, record number 1 sits whole inside one segment file at an
offset divisible by 6. -/
theorem c6_no_record_split_witness :
    ∃ f off, off % 6 = 0 ∧
      ((((write_a_posting_list [("a", [(5, 7), (9, 70000)])]).1.files).getD f []).drop off).take 6
        = encodeTuple ((([("a", [((5 : Nat), (7 : Nat)), (9, 70000)])].getD 0 ("", [])).2).getD 1 (0, 0)) :=
  (c6_no_record_split [("a", [(5, 7), (9, 70000)])]).2 0 1 (by decide)

/-! ### Construction invariants of the inverted index (C3) -/

theorem add_doc_df (idx : BuildIndex) (doc_id : Nat) (tokens : List String) (w : String) :
    (add_doc idx doc_id tokens).df w
      = if w ∈ tokens then idx.df w + 1 else idx.df w := rfl

theorem add_doc_total (idx : BuildIndex) (doc_id : Nat) (tokens : List String) (w : String) :
    (add_doc idx doc_id tokens).term_total w
      = idx.term_total w + tokens.count w := rfl

theorem buildIndex_foldl (docs : List (Nat × List String)) : ∀ (idx : BuildIndex) (t : String),
    ((docs.foldl (fun idx p => add_doc idx p.1 p.2) idx).df t
        = idx.df t + (docs.filter fun p => t ∈ p.2).length) ∧
    ((docs.foldl (fun idx p => add_doc idx p.1 p.2) idx).term_total t
        = idx.term_total t + (docs.map fun p => p.2.count t).sum) := by
  induction docs with
  | nil =>
    intro idx t
    simp
  | cons p docs ih =>
    intro idx t
    obtain ⟨ih1, ih2⟩ := ih (add_doc idx p.1 p.2) t
    constructor
    · simp only [List.foldl_cons]
      rw [ih1, add_doc_df]
      by_cases ht : t ∈ p.2
      · rw [if_pos ht, List.filter_cons, if_pos (by simpa using ht)]
        simp only [List.length_cons]
        omega
      · rw [if_neg ht, List.filter_cons, if_neg (by simpa using ht)]
    · simp only [List.foldl_cons]
      rw [ih2, add_doc_total]
      simp only [List.map_cons, List.sum_cons]
      omega

/-- C3: after constructing an index from a document list in which every
document id occurs once, `df[t]` is the number of distinct documents
whose token list contains `t`, and `term_total[t]` is the sum over the
documents of the occurrence count of `t`. -/
theorem c3_df_invariant (docs : List (Nat × List String)) (t : String)
    (h : (docs.map Prod.fst).Nodup) :
    (buildIndex docs).df t
        = ((docs.filter fun p => t ∈ p.2).map Prod.fst).toFinset.card ∧
      (buildIndex docs).term_total t = (docs.map fun p => p.2.count t).sum := by
  obtain ⟨h1, h2⟩ := buildIndex_foldl docs BuildIndex.empty t
  have hnodup : ((docs.filter fun p => t ∈ p.2).map Prod.fst).Nodup :=
    h.sublist ((List.filter_sublist docs).map Prod.fst)
  constructor
  · rw [buildIndex, h1, List.toFinset_card_of_nodup hnodup, List.length_map]
    simp [BuildIndex.empty]
  · rw [buildIndex, h2]
    simp [BuildIndex.empty]

/-- Witness for C3 on the specification scenario
`{1: ["cat","dog","cat"], 2: ["dog"]}` at the term `"dog"`. -/
theorem c3_df_invariant_witness :
    (buildIndex docsScenario).df "dog"
        = ((docsScenario.filter fun p => "dog" ∈ p.2).map Prod.fst).toFinset.card ∧
      (buildIndex docsScenario).term_total "dog"
        = (docsScenario.map fun p => p.2.count "dog").sum :=
  c3_df_invariant docsScenario "dog" (by decide)

/-! ### Unknown terms contribute nothing (C8) -/

/-- C8: a term with no entry in `posting_locs` reads back as the empty
posting list without performing any read (the result does not depend on
the file system), and a term absent from an index's `df` map leaves every
document's score unchanged in every ranking mode. -/
theorem c8_unknown_term :
    (∀ (idx : StoredIndex) (files : List (List Nat)) (w : String),
      idx.posting_locs.lookup w = none → read_a_posting_list idx files w = []) ∧
    (∀ (df : String → Option Nat) (posting : String → List (Nat × Nat)) (t : String),
      df t = none → get_posting df posting t = []) ∧
    (∀ (fr : Frontend) (sc : List (Nat × ℝ)) (t : String),
      fr.title_df t = none → titleStep fr sc t = sc) ∧
    (∀ (fr : Frontend) (sc : List (Nat × ℝ)) (t : String),
      fr.anchor_df t = none → anchorStep fr sc t = sc) ∧
    (∀ (fr : Frontend) (sc : List (Nat × ℝ)) (t : String),
      fr.body_df t = none → bodyStep fr sc t = sc) ∧
    (∀ (fr : Frontend) (sc : List (Nat × ℝ)) (t : String),
      fr.title_df t = none → fr.body_df t = none → hybridStep fr sc t = sc) := by
  refine ⟨?_, ?_, ?_, ?_, ?_, ?_⟩
  · intro idx files w h
    rw [read_a_posting_list, h]
  · intro df posting t h
    rw [get_posting, h]
  · intro fr sc t h
    simp [titleStep, get_posting, h]
  · intro fr sc t h
    simp [anchorStep, get_posting, h]
  · intro fr sc t h
    simp [bodyStep, h]
  · intro fr sc t h1 h2
    simp [hybridStep, get_posting, h1, h2]

/-- Witness for C8 at the term `"q"` against empty structures. -/
theorem c8_unknown_term_witness :
    read_a_posting_list ⟨fun _ => 0, []⟩ [] "q" = [] ∧
    get_posting (fun _ => none) (fun _ => []) "q" = [] ∧
    titleStep emptyFrontend [] "q" = [] ∧
    anchorStep emptyFrontend [] "q" = [] ∧
    bodyStep emptyFrontend [] "q" = [] ∧
    hybridStep emptyFrontend [] "q" = [] :=
  ⟨c8_unknown_term.1 ⟨fun _ => 0, []⟩ [] "q" rfl,
   c8_unknown_term.2.1 (fun _ => none) (fun _ => []) "q" rfl,
   c8_unknown_term.2.2.1 emptyFrontend [] "q" rfl,
   c8_unknown_term.2.2.2.1 emptyFrontend [] "q" rfl,
   c8_unknown_term.2.2.2.2.1 emptyFrontend [] "q" rfl,
   c8_unknown_term.2.2.2.2.2 emptyFrontend [] "q" rfl rfl⟩

/-! ### Counter accumulation -/

theorem scoreOf_nil (d : Nat) : scoreOf [] d = 0 := rfl

theorem scoreOf_counterAdd (c : List (Nat × ℝ)) (k : Nat) (v : ℝ) (d : Nat) :
    scoreOf (counterAdd c k v) d = scoreOf c d + if d = k then v else 0 := by
  induction c with
  | nil =>
    by_cases hd : d = k
    · simp [counterAdd, scoreOf, List.lookup, hd]
    · have hbeq : (d == k) = false := beq_eq_false_iff_ne.mpr hd
      simp [counterAdd, scoreOf, List.lookup, hbeq, hd]
  | cons p rest ih =>
    rw [counterAdd]
    by_cases hp : p.1 = k
    · rw [if_pos hp]
      by_cases hd : d = p.1
      · have hdk : d = k := hd.trans hp
        have hbeq : (d == p.1) = true := beq_iff_eq.mpr hd
        have hbeq2 : (k == p.1) = true := beq_iff_eq.mpr hp.symm
        simp [scoreOf, List.lookup, hbeq, hbeq2, hdk]
      · have hbeq : (d == p.1) = false := beq_eq_false_iff_ne.mpr hd
        have hdk : ¬ d = k := fun h => hd (h.trans hp.symm)
        simp [scoreOf, List.lookup, hbeq, hdk]
    · rw [if_neg hp]
      by_cases hd : d = p.1
      · have hdk : ¬ d = k := fun h => hp (hd.symm.trans h)
        have hbeq : (d == p.1) = true := beq_iff_eq.mpr hd
        simp [scoreOf, List.lookup, hbeq, hdk]
      · have hbeq : (d == p.1) = false := beq_eq_false_iff_ne.mpr hd
        have goal := ih
        simp only [scoreOf, List.lookup, hbeq] at goal ⊢
        exact goal

theorem scoreOf_foldl_postings (v : Nat × Nat → ℝ) (d : Nat) :
    ∀ (l : List (Nat × Nat)) (c : List (Nat × ℝ)),
      scoreOf (l.foldl (fun sc p => counterAdd sc p.1 (v p)) c) d =
        scoreOf c d + (l.map fun p => if p.1 = d then v p else 0).sum := by
  intro l
  induction l with
  | nil =>
    intro c
    simp
  | cons p l ih =>
    intro c
    simp only [List.foldl_cons, List.map_cons, List.sum_cons]
    rw [ih, scoreOf_counterAdd]
    have hswap : (if d = p.1 then v p else 0) = (if p.1 = d then v p else 0) := by
      by_cases h : d = p.1
      · rw [if_pos h, if_pos h.symm]
      · rw [if_neg h, if_neg fun h2 => h h2.symm]
    rw [hswap]
    ring

theorem scoreOf_foldl_tokens (step : List (Nat × ℝ) → String → List (Nat × ℝ))
    (g : String → ℝ) (d : Nat)
    (hstep : ∀ (sc : List (Nat × ℝ)) (t : String),
      scoreOf (step sc t) d = scoreOf sc d + g t) :
    ∀ (tokens : List String) (c : List (Nat × ℝ)),
      scoreOf (tokens.foldl step c) d = scoreOf c d + (tokens.map g).sum := by
  intro tokens
  induction tokens with
  | nil =>
    intro c
    simp
  | cons t tokens ih =>
    intro c
    simp only [List.foldl_cons, List.map_cons, List.sum_cons]
    rw [ih, hstep]
    ring

theorem scoreOf_titleStep (fr : Frontend) (sc : List (Nat × ℝ)) (t : String) (d : Nat) :
    scoreOf (titleStep fr sc t) d = scoreOf sc d +
      ((get_posting fr.title_df fr.title_posting t).map fun p =>
        if p.1 = d then (1 : ℝ) else 0).sum :=
  scoreOf_foldl_postings (fun _ => 1) d _ sc

theorem scoreOf_anchorStep (fr : Frontend) (sc : List (Nat × ℝ)) (t : String) (d : Nat) :
    scoreOf (anchorStep fr sc t) d = scoreOf sc d +
      ((get_posting fr.anchor_df fr.anchor_posting t).map fun p =>
        if p.1 = d then (1 : ℝ) else 0).sum :=
  scoreOf_foldl_postings (fun _ => 1) d _ sc

theorem scoreOf_bodyStep (fr : Frontend) (sc : List (Nat × ℝ)) (t : String) (d : Nat) :
    scoreOf (bodyStep fr sc t) d = scoreOf sc d + bodyTermSpec fr t d := by
  cases h : fr.body_df t with
  | none => simp [bodyStep, bodyTermSpec, h]
  | some dft =>
    simp only [bodyStep, bodyTermSpec, h]
    exact scoreOf_foldl_postings _ d _ sc

theorem scoreOf_hybridStep (fr : Frontend) (sc : List (Nat × ℝ)) (t : String) (d : Nat) :
    scoreOf (hybridStep fr sc t) d = scoreOf sc d + hybridTermSpec fr t d := by
  show scoreOf ((get_posting fr.body_df fr.body_posting t).foldl
      (fun sc p => counterAdd sc p.1
        (0.3 * ((p.2 : ℝ) * hybridIdf fr t) / ((fr.doc_norms p.1).getD 1)))
      ((get_posting fr.title_df fr.title_posting t).foldl
        (fun sc p => counterAdd sc p.1 0.7) sc)) d = _
  rw [scoreOf_foldl_postings
      (fun p => 0.3 * ((p.2 : ℝ) * hybridIdf fr t) / ((fr.doc_norms p.1).getD 1)) d,
    scoreOf_foldl_postings (fun _ => (0.7 : ℝ)) d, hybridTermSpec]
  ring

/-- C4: in `search_body`, the score of each document is the sum over the
query terms that are present in the body index's document-frequency map
of `(tf * log10(N / df[t])) / norm[doc_id]` over that term's postings,
with the norm defaulting to 1 and an absent term contributing 0; in
particular a term present in every document (`df[t] = N`) has
`idf = log10(1) = 0` and contributes 0 to every document. -/
theorem c4_search_body_scores (fr : Frontend) (tokens : List String) (d : Nat) :
    scoreOf (search_body_scores fr tokens) d
        = (tokens.map fun t => bodyTermSpec fr t d).sum ∧
      ∀ t, fr.body_df t = some fr.N → bodyTermSpec fr t d = 0 := by
  constructor
  · have h := scoreOf_foldl_tokens (bodyStep fr) (fun t => bodyTermSpec fr t d) d
      (fun sc t => scoreOf_bodyStep fr sc t d) tokens []
    simpa [search_body_scores, scoreOf] using h
  · intro t ht
    have hidf : Real.logb 10 ((fr.N : ℝ) / (fr.N : ℝ)) = 0 := by
      rcases Nat.eq_zero_or_pos fr.N with h0 | hpos
      · simp [h0]
      · rw [div_self (Nat.cast_ne_zero.mpr (Nat.pos_iff_ne_zero.mp hpos))]
        exact Real.logb_one
    simp [bodyTermSpec, ht, hidf]

/-- Witness for C4: a two-document body index where `"dog"` occurs in
both documents, so `df = N = 2` and the term contributes 0. -/
theorem c4_search_body_scores_witness :
    scoreOf (search_body_scores bodyFrontend ["dog"]) 1
        = (["dog"].map fun t => bodyTermSpec bodyFrontend t 1).sum ∧
      bodyTermSpec bodyFrontend "dog" 1 = 0 :=
  ⟨(c4_search_body_scores bodyFrontend ["dog"] 1).1,
   (c4_search_body_scores bodyFrontend ["dog"] 1).2 "dog" (by simp [bodyFrontend])⟩

/-! ### Sorting of score items -/

theorem sortScores_perm (c : List (Nat × ℝ)) : (sortScores c).Perm c :=
  List.mergeSort_perm c _

theorem sortScores_length (c : List (Nat × ℝ)) : (sortScores c).length = c.length :=
  (sortScores_perm c).length_eq

theorem sortScores_sorted (c : List (Nat × ℝ)) :
    List.Pairwise (fun p q : Nat × ℝ => q.2 ≤ p.2) (sortScores c) := by
  have htrans : ∀ a b c : Nat × ℝ, decide (b.2 ≤ a.2) = true →
      decide (c.2 ≤ b.2) = true → decide (c.2 ≤ a.2) = true := by
    intro a b c hab hbc
    rw [decide_eq_true_eq] at hab hbc ⊢
    exact le_trans hbc hab
  have htotal : ∀ a b : Nat × ℝ,
      (decide (b.2 ≤ a.2) || decide (a.2 ≤ b.2)) = true := by
    intro a b
    rcases le_total b.2 a.2 with h | h
    · simp [h]
    · simp [h]
  have h := List.sorted_mergeSort htrans htotal c
  exact h.imp fun hab => of_decide_eq_true hab

theorem search_ranked_sorted (fr : Frontend) (tokens : List String) :
    List.Pairwise (fun p q : Nat × ℝ => q.2 ≤ p.2) (search_ranked fr tokens) :=
  List.Pairwise.sublist (List.take_sublist 100 _)
    (sortScores_sorted (search_scores fr tokens))

theorem search_ranked_top (fr : Frontend) (tokens : List String) :
    ∀ p ∈ search_ranked fr tokens,
      ∀ q ∈ (sortScores (search_scores fr tokens)).drop 100, q.2 ≤ p.2 := by
  have hs := sortScores_sorted (search_scores fr tokens)
  rw [← List.take_append_drop 100 (sortScores (search_scores fr tokens))] at hs
  exact (List.pairwise_append.mp hs).2.2

/-- C5: in hybrid `search`, each document's score is the sum over the
query terms of 0.7 per occurrence of the document in the term's title
posting list plus `0.3 * (tf * log10(N / body_df[t])) / norm` per body
posting of the term (0 when the term is absent from the body index, the
norm defaulting to 1); and the result is at most the 100 best-scoring
documents: at most 100 rows, sorted by descending score, every kept item
scoring at least every dropped one, the sorted items being a permutation
of the accumulated scores. -/
theorem c5_hybrid_scoring (fr : Frontend) (tokens : List String) (d : Nat) :
    scoreOf (search_scores fr tokens) d
        = (tokens.map fun t => hybridTermSpec fr t d).sum ∧
      (search_res fr tokens).length ≤ 100 ∧
      List.Pairwise (fun p q : Nat × ℝ => q.2 ≤ p.2) (search_ranked fr tokens) ∧
      (∀ p ∈ search_ranked fr tokens,
        ∀ q ∈ (sortScores (search_scores fr tokens)).drop 100, q.2 ≤ p.2) ∧
      (sortScores (search_scores fr tokens)).Perm (search_scores fr tokens) := by
  refine ⟨?_, ?_, search_ranked_sorted fr tokens, search_ranked_top fr tokens,
    sortScores_perm _⟩
  · have h := scoreOf_foldl_tokens (hybridStep fr) (fun t => hybridTermSpec fr t d) d
      (fun sc t => scoreOf_hybridStep fr sc t d) tokens []
    simpa [search_scores, scoreOf] using h
  · rw [search_res, List.length_map, search_ranked]
    exact List.length_take_le 100 _

/-- Witness for C5 on the two-document body index and a one-term query. -/
theorem c5_hybrid_scoring_witness :
    scoreOf (search_scores bodyFrontend ["dog"]) 1
        = (["dog"].map fun t => hybridTermSpec bodyFrontend t 1).sum ∧
      (search_res bodyFrontend ["dog"]).length ≤ 100 :=
  ⟨(c5_hybrid_scoring bodyFrontend ["dog"] 1).1,
   (c5_hybrid_scoring bodyFrontend ["dog"] 1).2.1⟩

/-! ### Result-list lengths across the four modes (C10) -/

theorem counterAdd_keys (c : List (Nat × ℝ)) (k : Nat) (v : ℝ) :
    (counterAdd c k v).map Prod.fst =
      if k ∈ c.map Prod.fst then c.map Prod.fst else c.map Prod.fst ++ [k] := by
  induction c with
  | nil => simp [counterAdd]
  | cons p rest ih =>
    rw [counterAdd]
    by_cases hp : p.1 = k
    · rw [if_pos hp]
      have hk : k ∈ (p :: rest).map Prod.fst := by
        simp [hp.symm]
      rw [if_pos hk]
      simp
    · rw [if_neg hp]
      simp only [List.map_cons, ih]
      by_cases hk : k ∈ rest.map Prod.fst
      · rw [if_pos hk, if_pos (by simp [hk])]
      · have hkp : ¬ k = p.1 := fun h => hp h.symm
        rw [if_neg hk, if_neg (by simp [hk, hkp])]
        simp

theorem counterAdd_nodup (c : List (Nat × ℝ)) (k : Nat) (v : ℝ)
    (h : (c.map Prod.fst).Nodup) : ((counterAdd c k v).map Prod.fst).Nodup := by
  rw [counterAdd_keys]
  by_cases hk : k ∈ c.map Prod.fst
  · rw [if_pos hk]
    exact h
  · rw [if_neg hk]
    exact ((List.perm_append_singleton k _).nodup_iff).mpr
      (List.nodup_cons.mpr ⟨hk, h⟩)

theorem counterAdd_keys_toFinset (c : List (Nat × ℝ)) (k : Nat) (v : ℝ) :
    ((counterAdd c k v).map Prod.fst).toFinset
      = insert k (c.map Prod.fst).toFinset := by
  rw [counterAdd_keys]
  by_cases hk : k ∈ c.map Prod.fst
  · rw [if_pos hk]
    exact (Finset.insert_eq_self.mpr (List.mem_toFinset.mpr hk)).symm
  · rw [if_neg hk, List.toFinset_append]
    simp [Finset.union_comm, Finset.insert_eq]

theorem counter_fold_keys (v : Nat × Nat → ℝ) :
    ∀ (l : List (Nat × Nat)) (c : List (Nat × ℝ)),
      ((l.foldl (fun sc p => counterAdd sc p.1 (v p)) c).map Prod.fst).toFinset
          = (c.map Prod.fst).toFinset ∪ (l.map Prod.fst).toFinset ∧
        ((c.map Prod.fst).Nodup →
          ((l.foldl (fun sc p => counterAdd sc p.1 (v p)) c).map Prod.fst).Nodup) := by
  intro l
  induction l with
  | nil =>
    intro c
    exact ⟨by simp, fun h => h⟩
  | cons p l ih =>
    intro c
    constructor
    · rw [List.foldl_cons, (ih (counterAdd c p.1 (v p))).1, counterAdd_keys_toFinset]
      simp only [List.map_cons, List.toFinset_cons]
      rw [Finset.insert_union, Finset.union_insert]
    · intro hnodup
      rw [List.foldl_cons]
      exact (ih (counterAdd c p.1 (v p))).2 (counterAdd_nodup c p.1 (v p) hnodup)

theorem titleScores_single_length (fr : Frontend) (t : String) :
    (search_title_scores fr [t]).length
      = ((get_posting fr.title_df fr.title_posting t).map Prod.fst).toFinset.card := by
  have hkeys : ((search_title_scores fr [t]).map Prod.fst).toFinset
      = (([] : List (Nat × ℝ)).map Prod.fst).toFinset ∪
        ((get_posting fr.title_df fr.title_posting t).map Prod.fst).toFinset :=
    (counter_fold_keys (fun _ => (1 : ℝ))
      (get_posting fr.title_df fr.title_posting t) []).1
  have hnodup : ((search_title_scores fr [t]).map Prod.fst).Nodup :=
    (counter_fold_keys (fun _ => (1 : ℝ))
      (get_posting fr.title_df fr.title_posting t) []).2 (by simp)
  calc (search_title_scores fr [t]).length
      = ((search_title_scores fr [t]).map Prod.fst).length := by
        rw [List.length_map]
    _ = ((search_title_scores fr [t]).map Prod.fst).toFinset.card :=
        (List.toFinset_card_of_nodup hnodup).symm
    _ = ((get_posting fr.title_df fr.title_posting t).map Prod.fst).toFinset.card := by
        rw [hkeys]
        simp

/-- C10: `search` and `search_body` truncate their result lists to at
most 100 rows, while `search_title` and `search_anchor` return one row
for every document that scored at least once, with no length limit; for
a single query term matching `k` distinct documents in the title index,
`search_title` returns all `k` of them. -/
theorem c10_no_truncation_title_anchor (fr : Frontend) (tokens : List String)
    (t : String) :
    (search_res fr tokens).length ≤ 100 ∧
    (search_body_res fr tokens).length ≤ 100 ∧
    (search_title_res fr tokens).length = (search_title_scores fr tokens).length ∧
    (search_anchor_res fr tokens).length = (search_anchor_scores fr tokens).length ∧
    (search_title_res fr [t]).length
      = ((get_posting fr.title_df fr.title_posting t).map Prod.fst).toFinset.card := by
  refine ⟨?_, ?_, ?_, ?_, ?_⟩
  · rw [search_res, List.length_map, search_ranked]
    exact List.length_take_le 100 _
  · rw [search_body_res, List.length_map]
    exact List.length_take_le 100 _
  · rw [search_title_res, List.length_map, sortScores_length]
  · rw [search_anchor_res, List.length_map, sortScores_length]
  · rw [search_title_res, List.length_map, sortScores_length]
    exact titleScores_single_length fr t

/-! ### Shard-location merging (C9) -/

theorem lookup_cons (p : String × List (Nat × Nat))
    (rest : List (String × List (Nat × Nat))) (w : String) :
    (p :: rest).lookup w = if w = p.1 then some p.2 else rest.lookup w := by
  obtain ⟨pk, pv⟩ := p
  by_cases hw : w = pk
  · have hb : (w == pk) = true := beq_iff_eq.mpr hw
    simp [List.lookup, hb, hw]
  · have hb : (w == pk) = false := beq_eq_false_iff_ne.mpr hw
    simp [List.lookup, hb, hw]

theorem lookup_setAssoc (d : List (String × List (Nat × Nat))) (k : String)
    (v : List (Nat × Nat)) (w : String) :
    (setAssoc d k v).lookup w = if w = k then some v else d.lookup w := by
  induction d with
  | nil =>
    by_cases hw : w = k
    · simp [setAssoc, List.lookup, hw]
    · have hbeq : (w == k) = false := beq_eq_false_iff_ne.mpr hw
      simp [setAssoc, List.lookup, hbeq, hw]
  | cons p rest ih =>
    rw [setAssoc]
    by_cases hp : p.1 = k
    · rw [if_pos hp]
      by_cases hw : w = k
      · have hb : (w == k) = true := beq_iff_eq.mpr hw
        simp [List.lookup, hb, hw]
      · have hb : (w == k) = false := beq_eq_false_iff_ne.mpr hw
        have hbp : (w == p.1) = false :=
          beq_eq_false_iff_ne.mpr fun h => hw (h.trans hp)
        simp [List.lookup, hb, hbp, hw]
    · rw [if_neg hp]
      by_cases hw : w = p.1
      · have hb : (w == p.1) = true := beq_iff_eq.mpr hw
        have hwk : ¬ w = k := fun h => hp (hw.symm.trans h)
        simp [List.lookup, hb, hwk]
      · have hb : (w == p.1) = false := beq_eq_false_iff_ne.mpr hw
        simp only [List.lookup, hb, ih]

theorem lookup_eq_none_of_not_mem (l : List (String × List (Nat × Nat)))
    (w : String) (h : w ∉ l.map Prod.fst) : l.lookup w = none := by
  induction l with
  | nil => rfl
  | cons p rest ih =>
    have h1 : ¬ w = p.1 := fun he => h (by simp [he])
    have hb : (w == p.1) = false := beq_eq_false_iff_ne.mpr h1
    simp only [List.lookup, hb]
    exact ih fun hm => h (by simp [hm])

theorem lookup_dictUpdate (l : List (String × List (Nat × Nat))) :
    ∀ (d : List (String × List (Nat × Nat))) (w : String),
      (l.map Prod.fst).Nodup →
        (dictUpdate d l).lookup w
          = match l.lookup w with
            | some v => some v
            | none => d.lookup w := by
  induction l with
  | nil =>
    intro d w _
    rfl
  | cons p l ih =>
    intro d w hnodup
    rw [List.map_cons] at hnodup
    have hnd := List.nodup_cons.mp hnodup
    rw [dictUpdate, List.foldl_cons]
    have hstep := ih (setAssoc d p.1 p.2) w hnd.2
    rw [dictUpdate] at hstep
    rw [hstep, lookup_setAssoc]
    by_cases hw : w = p.1
    · have hb : (w == p.1) = true := beq_iff_eq.mpr hw
      have hnone : l.lookup w = none :=
        lookup_eq_none_of_not_mem l w (hw ▸ hnd.1)
      simp only [List.lookup, hb, hnone, if_pos hw]
    · have hb : (w == p.1) = false := beq_eq_false_iff_ne.mpr hw
      simp only [List.lookup, hb, if_neg hw]

theorem df_foldl_shard (l : List (String × List (Nat × Nat))) :
    ∀ (df : String → Nat) (w : String), (l.map Prod.fst).Nodup →
      (l.foldl (fun f p => fun x => if x = p.1 then f x + 1 else f x) df) w
        = df w + if (l.lookup w).isSome then 1 else 0 := by
  induction l with
  | nil =>
    intro df w _
    simp [List.lookup]
  | cons p l ih =>
    intro df w hnodup
    rw [List.map_cons] at hnodup
    have hnd := List.nodup_cons.mp hnodup
    rw [List.foldl_cons, ih _ w hnd.2, lookup_cons]
    by_cases hw : w = p.1
    · have hnone : l.lookup p.1 = none :=
        lookup_eq_none_of_not_mem l p.1 hnd.1
      rw [if_pos hw]
      simp [hw, hnone]
    · have hx : (if w = p.1 then some p.2 else List.lookup w l) = List.lookup w l :=
        if_neg hw
      rw [hx]
      simp [hw]

theorem load_extra_locs_two_fst (pl : List (String × List (Nat × Nat)))
    (df : String → Nat) (l1 l2 : List (String × List (Nat × Nat))) :
    (load_extra_locs pl df [l1, l2]).1 = dictUpdate (dictUpdate pl l1) l2 := rfl

theorem load_extra_locs_two_snd (pl : List (String × List (Nat × Nat)))
    (df : String → Nat) (l1 l2 : List (String × List (Nat × Nat))) :
    (load_extra_locs pl df [l1, l2]).2
      = l2.foldl (fun f p => fun x => if x = p.1 then f x + 1 else f x)
          (l1.foldl (fun f p => fun x => if x = p.1 then f x + 1 else f x) df) := rfl

/-- C9: merging two shard location files with disjoint term sets into an
index with an empty location directory yields a `posting_locs` map whose
key set is the union of the shards' key sets, each term keeping the exact
location list of its own shard; `df` is incremented by one per shard file
mentioning the term; and both the resulting map and the resulting `df`
are independent of the order in which the two shard files are processed. -/
theorem c9_shard_merge (df0 : String → Nat)
    (l1 l2 : List (String × List (Nat × Nat))) (w : String)
    (h1 : (l1.map Prod.fst).Nodup) (h2 : (l2.map Prod.fst).Nodup)
    (hdisj : ∀ x : String, (l1.lookup x).isSome → (l2.lookup x).isSome → False) :
    ((load_extra_locs [] df0 [l1, l2]).1.lookup w
        = match l1.lookup w with
          | some v => some v
          | none => l2.lookup w) ∧
      (((load_extra_locs [] df0 [l1, l2]).1.lookup w).isSome
        ↔ (l1.lookup w).isSome ∨ (l2.lookup w).isSome) ∧
      ((load_extra_locs [] df0 [l1, l2]).2 w
        = df0 w + (if (l1.lookup w).isSome then 1 else 0)
            + (if (l2.lookup w).isSome then 1 else 0)) ∧
      ((load_extra_locs [] df0 [l1, l2]).1.lookup w
        = (load_extra_locs [] df0 [l2, l1]).1.lookup w) ∧
      ((load_extra_locs [] df0 [l1, l2]).2 w
        = (load_extra_locs [] df0 [l2, l1]).2 w) := by
  have key12 : (load_extra_locs [] df0 [l1, l2]).1.lookup w
      = match l2.lookup w with
        | some v => some v
        | none =>
          match l1.lookup w with
          | some v => some v
          | none => ([] : List (String × List (Nat × Nat))).lookup w := by
    rw [load_extra_locs_two_fst]
    rw [lookup_dictUpdate l2 _ w h2]
    cases l2.lookup w with
    | none => rw [lookup_dictUpdate l1 [] w h1]
    | some v => rfl
  have key21 : (load_extra_locs [] df0 [l2, l1]).1.lookup w
      = match l1.lookup w with
        | some v => some v
        | none =>
          match l2.lookup w with
          | some v => some v
          | none => ([] : List (String × List (Nat × Nat))).lookup w := by
    rw [load_extra_locs_two_fst]
    rw [lookup_dictUpdate l1 _ w h1]
    cases l1.lookup w with
    | none => rw [lookup_dictUpdate l2 [] w h2]
    | some v => rfl
  have df12 : (load_extra_locs [] df0 [l1, l2]).2 w
      = df0 w + (if (l1.lookup w).isSome then 1 else 0)
          + (if (l2.lookup w).isSome then 1 else 0) := by
    rw [load_extra_locs_two_snd]
    rw [df_foldl_shard l2 _ w h2, df_foldl_shard l1 df0 w h1]
  have df21 : (load_extra_locs [] df0 [l2, l1]).2 w
      = df0 w + (if (l2.lookup w).isSome then 1 else 0)
          + (if (l1.lookup w).isSome then 1 else 0) := by
    rw [load_extra_locs_two_snd]
    rw [df_foldl_shard l1 _ w h1, df_foldl_shard l2 df0 w h2]
  refine ⟨?_, ?_, df12, ?_, ?_⟩
  · rw [key12]
    cases hl1 : l1.lookup w with
    | some v =>
      have hl2 : l2.lookup w = none := by
        cases hl2 : l2.lookup w with
        | none => rfl
        | some v2 =>
          exact absurd (hdisj w (by rw [hl1]; rfl) (by rw [hl2]; rfl)) (fun h => h)
      rw [hl2]
    | none =>
      cases hl2 : l2.lookup w with
      | some v => rfl
      | none => rfl
  · rw [key12]
    cases hl1 : l1.lookup w with
    | some v =>
      cases hl2 : l2.lookup w with
      | some v2 => simp
      | none => simp
    | none =>
      cases hl2 : l2.lookup w with
      | some v2 => simp
      | none => simp [List.lookup]
  · rw [key12, key21]
    cases hl1 : l1.lookup w with
    | some v =>
      have hl2 : l2.lookup w = none := by
        cases hl2 : l2.lookup w with
        | none => rfl
        | some v2 =>
          exact absurd (hdisj w (by rw [hl1]; rfl) (by rw [hl2]; rfl)) (fun h => h)
      rw [hl2]
    | none =>
      cases hl2 : l2.lookup w with
      | some v => rfl
      | none => rfl
  · rw [df12, df21]
    ring

/-- Witness for C9 on two singleton shards with the distinct terms `"a"`
and `"b"`, looked up at `"a"`. -/
theorem c9_shard_merge_witness :
    ((load_extra_locs [] (fun _ => 0) [[("a", [(0, 0)])], [("b", [(1, 6)])]]).1.lookup "a"
        = match ([(("a" : String), [((0 : Nat), (0 : Nat))])] : List (String × List (Nat × Nat))).lookup "a" with
          | some v => some v
          | none => ([(("b" : String), [((1 : Nat), (6 : Nat))])] : List (String × List (Nat × Nat))).lookup "a") ∧
      (((load_extra_locs [] (fun _ => 0) [[("a", [(0, 0)])], [("b", [(1, 6)])]]).1.lookup "a").isSome
        ↔ (([(("a" : String), [((0 : Nat), (0 : Nat))])] : List (String × List (Nat × Nat))).lookup "a").isSome
          ∨ (([(("b" : String), [((1 : Nat), (6 : Nat))])] : List (String × List (Nat × Nat))).lookup "a").isSome) ∧
      ((load_extra_locs [] (fun _ => 0) [[("a", [(0, 0)])], [("b", [(1, 6)])]]).2 "a"
        = 0 + (if (([(("a" : String), [((0 : Nat), (0 : Nat))])] : List (String × List (Nat × Nat))).lookup "a").isSome then 1 else 0)
            + (if (([(("b" : String), [((1 : Nat), (6 : Nat))])] : List (String × List (Nat × Nat))).lookup "a").isSome then 1 else 0)) ∧
      ((load_extra_locs [] (fun _ => 0) [[("a", [(0, 0)])], [("b", [(1, 6)])]]).1.lookup "a"
        = (load_extra_locs [] (fun _ => 0) [[("b", [(1, 6)])], [("a", [(0, 0)])]]).1.lookup "a") ∧
      ((load_extra_locs [] (fun _ => 0) [[("a", [(0, 0)])], [("b", [(1, 6)])]]).2 "a"
        = (load_extra_locs [] (fun _ => 0) [[("b", [(1, 6)])], [("a", [(0, 0)])]]).2 "a") :=
  c9_shard_merge (fun _ => 0) [("a", [(0, 0)])] [("b", [(1, 6)])] "a"
    (by decide) (by decide)
    (by
      intro x hx1 hx2
      by_cases hx : x = "a"
      · rw [hx] at hx2
        simp [List.lookup] at hx2
      · rw [lookup_eq_none_of_not_mem _ x (by simp [hx])] at hx1
        simp at hx1)

end IRIndex
